import Mathlib

/-!
Verification development for the Z3 bridge of pySMT (`pysmt/solvers/z3.py`):
a shallow embedding of the bidirectional term translation (`Z3Converter.convert`,
`Z3Converter.back`), the incremental solver session (`Z3Solver`), and the
quantifier-elimination session (`Z3QuantifierEliminator`), together with proofs
of the specified properties.

Conventions of the embedding:
* pySMT formula DAGs are the inductive `PTerm` (with auxiliary `PTermList` for
  the n-ary node kinds `And/Or/Plus/Times` and function applications).
* Z3 native terms are the inductive `ZTerm`; operator kinds are grouped by
  arity (`ZNaryK`, `ZBinK`, `ZUnK`, `ZParamK`) mirroring the Z3 decl-kind
  dispatch table `_back_fun` of the source.
* Machine-level resource management (Z3_inc_ref / Z3_dec_ref) carries no
  functional content and is not modelled; neither are string-sorted symbols
  (rejected by the source) or quantified back-conversion (always an error in
  the source, and outside the grammars of the claims).
* The external engine (z3 check/unsat-core/model-eval, the qe and simplify
  tactics) is opaque in the source and is passed in as oracle functions.
-/

/-- pySMT types as used by this bridge (`pysmt.typing`): Bool, Int, Real,
fixed-width bitvectors, arrays and named custom sorts.  Function types never
occur as the type of a sub-term (function symbols appear only as the head of
an application), so they are kept separate in `FunSig`. -/
inductive PType where
  | bool : PType
  | int : PType
  | real : PType
  | bv : Nat → PType
  | arr : PType → PType → PType
  | custom : String → PType
deriving DecidableEq, Repr

/-- Signature of an uninterpreted function symbol (`FunctionType`). -/
structure FunSig where
  params : List PType
  ret : PType
deriving DecidableEq, Repr

/-- Z3 sorts (`z3.Sort`), as produced by `Z3Converter._type_to_z3` and
consumed by `Z3Converter._z3_to_type`. -/
inductive ZSort where
  | zbool : ZSort
  | zint : ZSort
  | zreal : ZSort
  | zbv : Nat → ZSort
  | zarr : ZSort → ZSort → ZSort
  | zuninterp : String → ZSort
deriving DecidableEq, Repr

/-- The n-ary pySMT node kinds lowered through `make_walk_nary`
(`walk_and`, `walk_or`, `walk_plus`, `walk_times`). -/
inductive PNaryK where
  | and | or | plus | times
deriving DecidableEq, Repr

/-- The binary pySMT node kinds: the `make_walk_binary` family
(`walk_implies/le/lt/equals/iff/pow/div` and the binary bitvector walkers),
plus `walk_minus` (a binary node lowered through the n-ary subtraction
constructor) and `walk_bv_comp` (lowered to an ite over an equality). -/
inductive PBinK where
  | implies | iff | equals | le | lt | div | pow | minus
  | bvand | bvor | bvxor | bvadd | bvsub | bvmul
  | bvudiv | bvurem | bvsdiv | bvsrem
  | bvshl | bvlshr | bvashr | bvconcat
  | bvult | bvule | bvslt | bvsle
  | bvcomp
deriving DecidableEq, Repr

/-- The unary pySMT node kinds (`walk_not`, `walk_toreal`, `walk_bv_not`,
`walk_bv_neg`, `walk_bv_tonatural`). -/
inductive PUnK where
  | not | toreal | bvnot | bvneg | bvtonat
deriving DecidableEq, Repr

/-- The parameterised unary bitvector kinds; the integer parameters are stored
on the formula node, exactly as the walkers read them
(`bv_extract_start/end`, `bv_extend_step`, `bv_rotation_step`). -/
inductive PParamK where
  | extract : Nat → Nat → PParamK   -- start, end
  | zext : Nat → PParamK
  | sext : Nat → PParamK
  | rol : Nat → PParamK
  | ror : Nat → PParamK
deriving DecidableEq, Repr

mutual
/-- pySMT formula nodes (`FNode`), restricted to the grammar the claims are
about: propositional connectives, if-then-else, linear-arithmetic relations
and operators, fixed-width bitvector operations, array select/store,
symbols, constants, and uninterpreted function applications.  Symbols carry
their type, function applications their signature, as in pySMT. -/
inductive PTerm where
  | ptrue : PTerm
  | pfalse : PTerm
  | psymbol : String → PType → PTerm
  | pintc : Int → PTerm
  | prealc : Rat → PTerm
  | pbvc : Nat → Nat → PTerm                -- value, width
  | pnary : PNaryK → PTermList → PTerm
  | pbin : PBinK → PTerm → PTerm → PTerm
  | punop : PUnK → PTerm → PTerm
  | pparam : PParamK → PTerm → PTerm
  | pite : PTerm → PTerm → PTerm → PTerm
  | pselect : PTerm → PTerm → PTerm
  | pstore : PTerm → PTerm → PTerm → PTerm
  | pfun : String → FunSig → PTermList → PTerm
deriving DecidableEq, Repr
/-- Argument lists of n-ary pySMT nodes. -/
inductive PTermList where
  | nil : PTermList
  | cons : PTerm → PTermList → PTermList
deriving DecidableEq, Repr
end

/-- The n-ary Z3 operator kinds (`Z3_mk_and/or/add/mul`;
`Z3_OP_AND/OR/ADD/MUL` on the way back). -/
inductive ZNaryK where
  | and | or | add | mul
deriving DecidableEq, Repr

/-- Binary Z3 operator kinds produced by the forward conversion.  `eq` is the
target of both `walk_equals` and `walk_iff` (both use `Z3_mk_eq`); `sub` is
`Z3_mk_sub` applied to the two arguments of a pySMT `Minus`; `extrotl` and
`extrotr` are `Z3_mk_ext_rotate_left/right`, whose rotation step is a term.
`div` is the real-division kind `Z3_OP_DIV`; `idiv` is the integer-division
kind `Z3_OP_IDIV`, which `Z3_mk_div` produces when the operands are
integer-sorted (so `walk_div` yields it on an integer-typed pySMT `Div`).
`idiv` and `mod` (`Z3_OP_MOD`, produced only by Z3 itself, e.g. the `qe`
tactic on LIA) have no `_back_fun` entry: back-converting either falls
through the dispatch, the constant branch and the uninterpreted-function
branch to the final `ConvertExpressionError` raise of `_back_single_term`,
which carries the offending term as its `expression`. -/
inductive ZBinK where
  | implies | eq | le | lt | div | pow | sub
  | bvand | bvor | bvxor | bvadd | bvsub | bvmul
  | bvudiv | bvurem | bvsdiv | bvsrem
  | bvshl | bvlshr | bvashr | bvconcat
  | bvult | bvule | bvslt | bvsle
  | extrotl | extrotr
  | idiv | mod
deriving DecidableEq, Repr

/-- Unary Z3 operator kinds (`Z3_mk_not`, `Z3_mk_int2real`, `Z3_mk_bvnot`,
`Z3_mk_bvneg`, `Z3_mk_bv2int`). -/
inductive ZUnK where
  | not | toreal | bvnot | bvneg | bv2int
deriving DecidableEq, Repr

/-- Z3 operator kinds with integer decl parameters: `Z3_mk_extract` stores
(high, low), `Z3_mk_zero_ext`/`Z3_mk_sign_ext` store the extension step;
back-conversion reads them with `z3.get_payload`. -/
inductive ZParamK where
  | extract : Nat → Nat → ZParamK           -- high (payload 0), low (payload 1)
  | zeroext : Nat → ZParamK
  | sigext : Nat → ZParamK
deriving DecidableEq, Repr

mutual
/-- Z3 native terms (`z3.AstRef`), covering the image of the forward
conversion: numerals (`Z3_mk_numeral` over the int, real and bitvector
sorts), `Z3_mk_true/false` (via `z3.BoolVal`), constants (`Z3_mk_const`,
carrying name and sort), the operator applications listed in the kind
enumerations, if-then-else, array select/store and applications of
uninterpreted function declarations (`Z3_mk_app`). -/
inductive ZTerm where
  | ztrue : ZTerm
  | zfalse : ZTerm
  | zintv : Int → ZTerm
  | zrealv : Rat → ZTerm
  | zbvv : Nat → Nat → ZTerm                -- value, width
  | zconst : String → ZSort → ZTerm
  | znary : ZNaryK → ZTermList → ZTerm
  | zbin : ZBinK → ZTerm → ZTerm → ZTerm
  | zun : ZUnK → ZTerm → ZTerm
  | zparam : ZParamK → ZTerm → ZTerm
  | zite : ZTerm → ZTerm → ZTerm → ZTerm
  | zselect : ZTerm → ZTerm → ZTerm
  | zstore : ZTerm → ZTerm → ZTerm → ZTerm
  | zfun : String → ZTermList → ZTerm
deriving DecidableEq, Repr
/-- Argument lists of n-ary Z3 applications. -/
inductive ZTermList where
  | nil : ZTermList
  | cons : ZTerm → ZTermList → ZTermList
deriving DecidableEq, Repr
end

/-- View a `PTermList` as a `List PTerm`. -/
def PTermList.toList : PTermList → List PTerm
  | .nil => []
  | .cons x xs => x :: xs.toList

/-- View a `List PTerm` as a `PTermList`. -/
def PTermList.ofList : List PTerm → PTermList
  | [] => .nil
  | x :: xs => .cons x (PTermList.ofList xs)

/-- View a `ZTermList` as a `List ZTerm`. -/
def ZTermList.toList : ZTermList → List ZTerm
  | .nil => []
  | .cons x xs => x :: xs.toList

/-- `Z3Converter._type_to_z3` (with the `z3Sort/z3ArraySort/z3BitVecSort`
caches collapsed: each cache memoizes a pure construction, so the function
computed is exactly this one). -/
def typeToZ3 : PType → ZSort
  | .bool => .zbool
  | .int => .zint
  | .real => .zreal
  | .bv w => .zbv w
  | .arr i e => .zarr (typeToZ3 i) (typeToZ3 e)
  | .custom n => .zuninterp n

/-- `Z3Converter._z3_to_type`. -/
def zSortToType : ZSort → PType
  | .zbool => .bool
  | .zint => .int
  | .zreal => .real
  | .zbv w => .bv w
  | .zarr d r => .arr (zSortToType d) (zSortToType r)
  | .zuninterp n => .custom n

/-- Width of a bitvector type (0 on non-bitvector types, which the walkers
never query). -/
def PType.widthOf : PType → Nat
  | .bv w => w
  | _ => 0

/-- The static type oracle (`environment.stc.get_type`, the external
type-inference collaborator): computes the type of each node from its
children, as pySMT's simple type checker does on the supported grammar.
`Modelled from the spec:` the oracle itself lives outside this file's source
(§6 "a type-inference oracle get_type(node) → Type"); on well-typed input it
returns the node's static type. -/
def ptype : PTerm → PType
  | .ptrue => .bool
  | .pfalse => .bool
  | .psymbol _ τ => τ
  | .pintc _ => .int
  | .prealc _ => .real
  | .pbvc _ w => .bv w
  | .pnary k xs =>
      match k with
      | .and => .bool
      | .or => .bool
      | .plus => match xs with | .cons x _ => ptype x | .nil => .int
      | .times => match xs with | .cons x _ => ptype x | .nil => .int
  | .pbin k a b =>
      match k with
      | .implies => .bool
      | .iff => .bool
      | .equals => .bool
      | .le => .bool
      | .lt => .bool
      | .div => ptype a
      | .pow => ptype a
      | .minus => ptype a
      | .bvand => ptype a
      | .bvor => ptype a
      | .bvxor => ptype a
      | .bvadd => ptype a
      | .bvsub => ptype a
      | .bvmul => ptype a
      | .bvudiv => ptype a
      | .bvurem => ptype a
      | .bvsdiv => ptype a
      | .bvsrem => ptype a
      | .bvshl => ptype a
      | .bvlshr => ptype a
      | .bvashr => ptype a
      | .bvconcat => .bv ((ptype a).widthOf + (ptype b).widthOf)
      | .bvult => .bool
      | .bvule => .bool
      | .bvslt => .bool
      | .bvsle => .bool
      | .bvcomp => .bv 1
  | .punop k a =>
      match k with
      | .not => .bool
      | .toreal => .real
      | .bvnot => ptype a
      | .bvneg => ptype a
      | .bvtonat => .int
  | .pparam k a =>
      match k with
      | .extract s e => .bv (e - s + 1)
      | .zext n => .bv ((ptype a).widthOf + n)
      | .sext n => .bv ((ptype a).widthOf + n)
      | .rol _ => ptype a
      | .ror _ => ptype a
  | .pite _ t _ => ptype t
  | .pselect a _ => match ptype a with | .arr _ e => e | _ => .bool
  | .pstore a _ _ => ptype a
  | .pfun _ sig _ => sig.ret

/-- Kind translation for the n-ary walkers: `walk_and ↦ Z3_mk_and`,
`walk_or ↦ Z3_mk_or`, `walk_plus ↦ Z3_mk_add`, `walk_times ↦ Z3_mk_mul`. -/
def kmapN : PNaryK → ZNaryK
  | .and => .and
  | .or => .or
  | .plus => .add
  | .times => .mul

/-- Kind translation for the binary walkers.  `walk_equals` and `walk_iff`
both lower through `Z3_mk_eq`; `bvcomp` never reaches this table (it is
special-cased in the conversion, like in `walk_bv_comp`). -/
def kmapB : PBinK → ZBinK
  | .implies => .implies
  | .iff => .eq
  | .equals => .eq
  | .le => .le
  | .lt => .lt
  | .div => .div
  | .pow => .pow
  | .minus => .sub
  | .bvand => .bvand
  | .bvor => .bvor
  | .bvxor => .bvxor
  | .bvadd => .bvadd
  | .bvsub => .bvsub
  | .bvmul => .bvmul
  | .bvudiv => .bvudiv
  | .bvurem => .bvurem
  | .bvsdiv => .bvsdiv
  | .bvsrem => .bvsrem
  | .bvshl => .bvshl
  | .bvlshr => .bvlshr
  | .bvashr => .bvashr
  | .bvconcat => .bvconcat
  | .bvult => .bvult
  | .bvule => .bvule
  | .bvslt => .bvslt
  | .bvsle => .bvsle
  | .bvcomp => .eq

/-- Kind translation for the unary walkers. -/
def kmapU : PUnK → ZUnK
  | .not => .not
  | .toreal => .toreal
  | .bvnot => .bvnot
  | .bvneg => .bvneg
  | .bvtonat => .bv2int

mutual
/-- `Z3Converter.convert` (= `walk` followed by the ref-class cast, which has
no term-level content): the bottom-up lowering of a pySMT node into a Z3
term, one `walk_*` rule per node kind.
* `walk_symbol` creates a constant with the symbol's name and sort
  (function-typed symbols never occur as sub-terms of the supported grammar);
* `walk_ite` rewrites a Boolean-typed if-then-else into
  `(¬i ∨ t) ∧ (i ∨ e)` and lowers any other if-then-else to `Z3_mk_ite`;
* `walk_bv_comp` lowers to `ite(eq(a,b), 1₁, 0₁)`;
* `walk_bv_rol/ror` lower to `Z3_mk_ext_rotate_left/right` with the rotation
  step as a bitvector numeral of the formula's width;
* `walk_div` lowers through `Z3_mk_div`, whose result's decl kind depends on
  the operand sort: `Z3_OP_IDIV` on integer-sorted operands, `Z3_OP_DIV` on
  real-sorted ones;
* the remaining kinds map one-to-one through `kmapN/kmapB/kmapU` and the
  parameterised constructors. -/
def convert : PTerm → ZTerm
  | .ptrue => .ztrue
  | .pfalse => .zfalse
  | .psymbol n τ => .zconst n (typeToZ3 τ)
  | .pintc z => .zintv z
  | .prealc q => .zrealv q
  | .pbvc v w => .zbvv v w
  | .pnary k xs => .znary (kmapN k) (convertL xs)
  | .pbin k a b =>
      match k with
      | .bvcomp => .zite (.zbin .eq (convert a) (convert b)) (.zbvv 1 1) (.zbvv 0 1)
      | .div =>
          if ptype a = PType.int then .zbin .idiv (convert a) (convert b)
          else .zbin .div (convert a) (convert b)
      | _ => .zbin (kmapB k) (convert a) (convert b)
  | .punop k a => .zun (kmapU k) (convert a)
  | .pparam k a =>
      match k with
      | .extract s e => .zparam (.extract e s) (convert a)
      | .zext n => .zparam (.zeroext n) (convert a)
      | .sext n => .zparam (.sigext n) (convert a)
      | .rol n => .zbin .extrotl (convert a) (.zbvv n (ptype a).widthOf)
      | .ror n => .zbin .extrotr (convert a) (.zbvv n (ptype a).widthOf)
  | .pite i t e =>
      if ptype (.pite i t e) = .bool then
        .znary .and (.cons (.znary .or (.cons (.zun .not (convert i)) (.cons (convert t) .nil)))
                    (.cons (.znary .or (.cons (convert i) (.cons (convert e) .nil))) .nil))
      else
        .zite (convert i) (convert t) (convert e)
  | .pselect a i => .zselect (convert a) (convert i)
  | .pstore a i v => .zstore (convert a) (convert i) (convert v)
  | .pfun n _ args => .zfun n (convertL args)
/-- Pointwise lowering of an argument list. -/
def convertL : PTermList → ZTermList
  | .nil => .nil
  | .cons x xs => .cons (convert x) (convertL xs)
end

/-- Errors raised by back-conversion, mirroring the source's exception
classes: `ConvertExpressionError` (carrying the offending expression),
`UndefinedSymbolError` (unknown function name in `mgr.get_symbol`), Python's
`AssertionError` (the arity assert at the top of `_back_single_term`), and an
internal marker for lookups the source performs unconditionally (a Python
`KeyError` would escape there; the proofs show these are unreachable). -/
inductive BErr where
  | convertExpressionError : Option ZTerm → BErr
  | undefinedSymbolError : String → BErr
  | assertionError : BErr
  | internalError : BErr
deriving DecidableEq, Repr

/-- The environment's symbol table (`mgr.get_symbol` / `mgr.Symbol`), an
external collaborator of the bridge.  `Modelled from the spec:` §6 "a symbol
table (get_symbol(name), declare(name, type), raising UndefinedSymbolError on
unknown lookups)"; §3 "Symbol: named, globally unique per environment by
name".  Variable symbols and function symbols are the two name spaces the
source consults (`mgr.get_symbol(str(expr))` and
`mgr.get_symbol(expr.decl().name())`). -/
structure SymTable where
  vars : String → Option PType
  funs : String → Option FunSig

/-- `FNode.bv_unsigned_value()` on a bitvector constant, as read by the
`Z3_OP_EXT_ROTATE_LEFT/RIGHT` entries of `_back_fun` from the already
back-converted rotation-step argument. -/
def bvUnsignedValue : PTerm → Nat
  | .pbvc v _ => v
  | _ => 0

/-- `mgr.And`: the formula-manager conjunction used by `_back_fun` and by
`_solve`.  `Modelled from the spec:` the formula manager lives outside this
file's source; pySMT's manager returns TRUE on an empty argument list and the
single argument on a singleton, and builds an AND node otherwise. -/
def mgrAnd : List PTerm → PTerm
  | [] => .ptrue
  | [x] => x
  | xs => .pnary .and (PTermList.ofList xs)

/-- `mgr.Or` (see `mgrAnd`). -/
def mgrOr : List PTerm → PTerm
  | [] => .pfalse
  | [x] => x
  | xs => .pnary .or (PTermList.ofList xs)

/-- `mgr.Plus` (see `mgrAnd`; pySMT collapses singleton argument lists). -/
def mgrPlus : List PTerm → PTerm
  | [] => .pintc 0
  | [x] => x
  | xs => .pnary .plus (PTermList.ofList xs)

/-- `mgr.Times` (see `mgrPlus`). -/
def mgrTimes : List PTerm → PTerm
  | [] => .pintc 1
  | [x] => x
  | xs => .pnary .times (PTermList.ofList xs)

/-- `z3.is_and` (`Z3_OP_AND`). -/
def zIsAnd : ZTerm → Bool
  | .znary .and _ => true
  | _ => false

/-- `z3.is_or` (`Z3_OP_OR`). -/
def zIsOr : ZTerm → Bool
  | .znary .or _ => true
  | _ => false

/-- `z3.is_add` (`Z3_OP_ADD`). -/
def zIsAdd : ZTerm → Bool
  | .znary .add _ => true
  | _ => false

/-- `z3.is_mul` (`Z3_OP_MUL`). -/
def zIsMul : ZTerm → Bool
  | .znary .mul _ => true
  | _ => false

/-- `z3.is_ite`, the module-level patch `is_app_of(x, Z3_OP_ITE)`. -/
def zIsIte : ZTerm → Bool
  | .zite _ _ _ => true
  | _ => false

/-- `z3.is_array_store`, the module-level patch `is_app_of(x, Z3_OP_STORE)`. -/
def zIsArrayStore : ZTerm → Bool
  | .zstore _ _ _ => true
  | _ => false

/-- `Z3Converter._back_single_term`: translates one Z3 application whose
children have already been back-converted (`args`).  Faithful to the source's
order of business:
* quantified terms raise (outside this embedding's `ZTerm`, which covers the
  image of the forward conversion — the grammars of the claims);
* the arity assert: more than 2 arguments are only tolerated on and/or/add/mul
  and on exactly-3-argument ite/store applications — anything else (notably an
  uninterpreted function application of arity ≥ 3) raises `AssertionError`;
* the `_back_fun` dispatch table over the decl kind, including the
  special-cased rules `_back_z3_eq` (biconditional when the first
  back-converted argument is Boolean-typed, equality otherwise) and the
  payload-reading bitvector rules;
* the constant branch: numerals become the exact literals, a symbolic leaf is
  looked up by name in the symbol table and, when absent, a symbol of the
  sort-inferred type is silently created (`self.mgr.Symbol(str(expr),
  symb_type)`);
* uninterpreted function applications resolve the declaration name through
  `mgr.get_symbol`, raising `UndefinedSymbolError` when unknown;
* `model` is the optional model context; no kind of this `ZTerm` consults it
  (as-array leaves, the only consumers, cannot be produced by `convert`). -/
def backSingleTerm (tbl : SymTable) (e : ZTerm) (args : List PTerm)
    (_model : Option Nat) : Except BErr PTerm :=
  if args.length > 2 ∧
     ¬(zIsAnd e = true ∨ zIsOr e = true ∨ zIsAdd e = true ∨ zIsMul e = true ∨
       (args.length = 3 ∧ (zIsIte e = true ∨ zIsArrayStore e = true))) then
    .error .assertionError
  else
    match e with
    | .ztrue => .ok .ptrue
    | .zfalse => .ok .pfalse
    | .znary k _ =>
        match k with
        | .and => .ok (mgrAnd args)
        | .or => .ok (mgrOr args)
        | .add => .ok (mgrPlus args)
        | .mul => .ok (mgrTimes args)
    | .zbin k _ _ =>
        match args with
        | [a, b] =>
            match k with
            | .eq => if ptype a = .bool then .ok (.pbin .iff a b) else .ok (.pbin .equals a b)
            | .implies => .ok (.pbin .implies a b)
            | .le => .ok (.pbin .le a b)
            | .lt => .ok (.pbin .lt a b)
            | .div => .ok (.pbin .div a b)
            | .pow => .ok (.pbin .pow a b)
            | .sub => .ok (.pbin .minus a b)
            | .bvand => .ok (.pbin .bvand a b)
            | .bvor => .ok (.pbin .bvor a b)
            | .bvxor => .ok (.pbin .bvxor a b)
            | .bvadd => .ok (.pbin .bvadd a b)
            | .bvsub => .ok (.pbin .bvsub a b)
            | .bvmul => .ok (.pbin .bvmul a b)
            | .bvudiv => .ok (.pbin .bvudiv a b)
            | .bvurem => .ok (.pbin .bvurem a b)
            | .bvsdiv => .ok (.pbin .bvsdiv a b)
            | .bvsrem => .ok (.pbin .bvsrem a b)
            | .bvshl => .ok (.pbin .bvshl a b)
            | .bvlshr => .ok (.pbin .bvlshr a b)
            | .bvashr => .ok (.pbin .bvashr a b)
            | .bvconcat => .ok (.pbin .bvconcat a b)
            | .bvult => .ok (.pbin .bvult a b)
            | .bvule => .ok (.pbin .bvule a b)
            | .bvslt => .ok (.pbin .bvslt a b)
            | .bvsle => .ok (.pbin .bvsle a b)
            | .extrotl => .ok (.pparam (.rol (bvUnsignedValue b)) a)
            | .extrotr => .ok (.pparam (.ror (bvUnsignedValue b)) a)
            | .idiv => .error (.convertExpressionError (some e))
            | .mod => .error (.convertExpressionError (some e))
        | _ => .error .internalError
    | .zun k _ =>
        match args with
        | [a] =>
            match k with
            | .not => .ok (.punop .not a)
            | .toreal => .ok (.punop .toreal a)
            | .bvnot => .ok (.punop .bvnot a)
            | .bvneg => .ok (.punop .bvneg a)
            | .bv2int => .ok (.punop .bvtonat a)
        | _ => .error .internalError
    | .zparam k _ =>
        match args with
        | [a] =>
            match k with
            | .extract hi lo => .ok (.pparam (.extract lo hi) a)
            | .zeroext n => .ok (.pparam (.zext n) a)
            | .sigext n => .ok (.pparam (.sext n) a)
        | _ => .error .internalError
    | .zite _ _ _ =>
        match args with
        | [i, t, el] => .ok (.pite i t el)
        | _ => .error .internalError
    | .zselect _ _ =>
        match args with
        | [a, i] => .ok (.pselect a i)
        | _ => .error .internalError
    | .zstore _ _ _ =>
        match args with
        | [a, i, v] => .ok (.pstore a i v)
        | _ => .error .internalError
    | .zintv z => .ok (.pintc z)
    | .zrealv q => .ok (.prealc q)
    | .zbvv v w => .ok (.pbvc v w)
    | .zconst n s =>
        match tbl.vars n with
        | some τ => .ok (.psymbol n τ)
        | none => .ok (.psymbol n (zSortToType s))
    | .zfun n _ =>
        match tbl.funs n with
        | some sig => .ok (.pfun n sig (PTermList.ofList args))
        | none => .error (.undefinedSymbolError n)

/-- `AstRef.children()`: the term arguments of a Z3 application (decl
parameters such as extraction bounds are not children; the rotation step of
`ext_rotate` is a term and therefore is). -/
def ZTerm.children : ZTerm → List ZTerm
  | .ztrue | .zfalse | .zintv _ | .zrealv _ | .zbvv _ _ | .zconst _ _ => []
  | .znary _ xs => xs.toList
  | .zbin _ a b => [a, b]
  | .zun _ a => [a]
  | .zparam _ a => [a]
  | .zite a b c => [a, b, c]
  | .zselect a b => [a, b]
  | .zstore a b c => [a, b, c]
  | .zfun _ xs => xs.toList

mutual
/-- Node count of a Z3 term (termination measure and fuel bound for the
worklist traversal). -/
def zsize : ZTerm → Nat
  | .ztrue | .zfalse | .zintv _ | .zrealv _ | .zbvv _ _ | .zconst _ _ => 1
  | .znary _ xs => 1 + zsizeL xs
  | .zbin _ a b => 1 + zsize a + zsize b
  | .zun _ a => 1 + zsize a
  | .zparam _ a => 1 + zsize a
  | .zite a b c => 1 + zsize a + zsize b + zsize c
  | .zselect a b => 1 + zsize a + zsize b
  | .zstore a b c => 1 + zsize a + zsize b + zsize c
  | .zfun _ xs => 1 + zsizeL xs
/-- Total node count of an argument list. -/
def zsizeL : ZTermList → Nat
  | .nil => 0
  | .cons x xs => zsize x + zsizeL xs
end

mutual
/-- Reference denotation of back-conversion: the value `Z3Converter.back`
computes for a term, expressed as a structural recursion (back-convert the
children in order, then apply `backSingleTerm`).  The worklist loop of the
source is proved below to compute exactly this on every resolved key. -/
def backRec (tbl : SymTable) (model : Option Nat) : ZTerm → Except BErr PTerm
  | .ztrue => backSingleTerm tbl .ztrue [] model
  | .zfalse => backSingleTerm tbl .zfalse [] model
  | .zintv z => backSingleTerm tbl (.zintv z) [] model
  | .zrealv q => backSingleTerm tbl (.zrealv q) [] model
  | .zbvv v w => backSingleTerm tbl (.zbvv v w) [] model
  | .zconst n s => backSingleTerm tbl (.zconst n s) [] model
  | .znary k xs => do backSingleTerm tbl (.znary k xs) (← backRecL tbl model xs) model
  | .zbin k a b => do
      let ra ← backRec tbl model a
      let rb ← backRec tbl model b
      backSingleTerm tbl (.zbin k a b) [ra, rb] model
  | .zun k a => do
      let ra ← backRec tbl model a
      backSingleTerm tbl (.zun k a) [ra] model
  | .zparam k a => do
      let ra ← backRec tbl model a
      backSingleTerm tbl (.zparam k a) [ra] model
  | .zite a b c => do
      let ra ← backRec tbl model a
      let rb ← backRec tbl model b
      let rc ← backRec tbl model c
      backSingleTerm tbl (.zite a b c) [ra, rb, rc] model
  | .zselect a b => do
      let ra ← backRec tbl model a
      let rb ← backRec tbl model b
      backSingleTerm tbl (.zselect a b) [ra, rb] model
  | .zstore a b c => do
      let ra ← backRec tbl model a
      let rb ← backRec tbl model b
      let rc ← backRec tbl model c
      backSingleTerm tbl (.zstore a b c) [ra, rb, rc] model
  | .zfun n xs => do backSingleTerm tbl (.zfun n xs) (← backRecL tbl model xs) model
/-- Back-convert an argument list in order. -/
def backRecL (tbl : SymTable) (model : Option Nat) : ZTermList → Except BErr (List PTerm)
  | .nil => .ok []
  | .cons x xs => do
      let r ← backRec tbl model x
      let rs ← backRecL tbl model xs
      .ok (r :: rs)
end

/-- Key of the back-conversion memo table `_back_memoization`:
`(askey(term), model)` — native term identity paired with the optional model
identity (models are identified by an id for the purposes of the key). -/
abbrev BackKey := ZTerm × Option Nat

/-- The back-conversion memo table (`self._back_memoization`): absent key,
in-progress marker (`None` in the source), or computed pySMT node. -/
def Memo : Type := BackKey → Option (Option PTerm)

/-- The empty memo table (state of a fresh converter). -/
def Memo.empty : Memo := fun _ => none

/-- Dictionary update `self._back_memoization[key] = v`. -/
def Memo.upd (m : Memo) (k : BackKey) (v : Option (Option PTerm)) : Memo :=
  fun q => if q = k then v else m q

/-- The worklist loop of `Z3Converter.back`, fuel-indexed: pop `current`; if
its key is unseen, mark it in progress and push it back below its children;
if it is in progress, all children are resolved — fetch their values, apply
`_back_single_term`, record the result; if it is resolved, skip it.  A fuel
of `2 * zsize` of the root is proved sufficient below. -/
def backLoop (tbl : SymTable) (model : Option Nat) :
    Nat → Memo → List ZTerm → Except BErr Memo
  | 0, memo, _ => .ok memo
  | _ + 1, memo, [] => .ok memo
  | fuel + 1, memo, current :: rest =>
    match memo (current, model) with
    | none =>
        backLoop tbl model fuel (memo.upd (current, model) (some none))
          (current.children.reverse ++ current :: rest)
    | some none =>
        let args := current.children.map fun c => ((memo (c, model)).getD none).getD .ptrue
        match backSingleTerm tbl current args model with
        | .error err => .error err
        | .ok res => backLoop tbl model fuel (memo.upd (current, model) (some (some res))) rest
    | some (some _) => backLoop tbl model fuel memo rest

/-- `backLoop` instrumented with a ghost trace: the second component lists, in
order, every key on which `_back_single_term` was invoked (i.e. every key the
loop *computed*, as opposed to served from the memo).  The memo/stack
behaviour is identical to `backLoop` (proved below); the trace exists only to
state the at-most-once computation property. -/
def backLoopT (tbl : SymTable) (model : Option Nat) :
    Nat → Memo → List ZTerm → Except BErr Memo × List BackKey
  | 0, memo, _ => (.ok memo, [])
  | _ + 1, memo, [] => (.ok memo, [])
  | fuel + 1, memo, current :: rest =>
    match memo (current, model) with
    | none =>
        backLoopT tbl model fuel (memo.upd (current, model) (some none))
          (current.children.reverse ++ current :: rest)
    | some none =>
        let args := current.children.map fun c => ((memo (c, model)).getD none).getD .ptrue
        match backSingleTerm tbl current args model with
        | .error err => (.error err, [(current, model)])
        | .ok res =>
            let out := backLoopT tbl model fuel (memo.upd (current, model) (some (some res))) rest
            (out.1, (current, model) :: out.2)
    | some (some _) => backLoopT tbl model fuel memo rest

/-- `Z3Converter.back`: run the worklist from the given memo table (the
converter's `_back_memoization`, which persists across calls) and return the
entry recorded for the root key together with the updated table. -/
def Z3Converter.back (tbl : SymTable) (memo : Memo) (expr : ZTerm)
    (model : Option Nat) : Except BErr (PTerm × Memo) :=
  match backLoop tbl model (2 * zsize expr) memo [expr] with
  | .error e => .error e
  | .ok memo' =>
      match memo' (expr, model) with
      | some (some v) => .ok (v, memo')
      | _ => .error .internalError

/-- Length of a `PTermList`. -/
def PTermList.lengthL : PTermList → Nat
  | .nil => 0
  | .cons _ xs => 1 + xs.lengthL

mutual
/-- The syntactic shape of one forward-then-backward round trip
(`back(convert(f))`), as a structural function: the identity on every node
kind except the two deliberate reconstructions —
* a Boolean-typed if-then-else comes back as `(¬i ∨ t) ∧ (i ∨ e)`;
* a bitvector comparison comes back as `ite(a = b, 1₁, 0₁)`.
This is a specification device; the theorem `backRec_convert` below proves it
is what the source computes. -/
def rtSpec : PTerm → PTerm
  | .ptrue => .ptrue
  | .pfalse => .pfalse
  | .psymbol n τ => .psymbol n τ
  | .pintc z => .pintc z
  | .prealc q => .prealc q
  | .pbvc v w => .pbvc v w
  | .pnary k xs => .pnary k (rtSpecL xs)
  | .pbin k a b =>
      match k with
      | .bvcomp => .pite (.pbin .equals (rtSpec a) (rtSpec b)) (.pbvc 1 1) (.pbvc 0 1)
      | _ => .pbin k (rtSpec a) (rtSpec b)
  | .punop k a => .punop k (rtSpec a)
  | .pparam k a => .pparam k (rtSpec a)
  | .pite i t e =>
      if ptype (.pite i t e) = .bool then
        .pnary .and (.cons (.pnary .or (.cons (.punop .not (rtSpec i)) (.cons (rtSpec t) .nil)))
                    (.cons (.pnary .or (.cons (rtSpec i) (.cons (rtSpec e) .nil))) .nil))
      else
        .pite (rtSpec i) (rtSpec t) (rtSpec e)
  | .pselect a i => .pselect (rtSpec a) (rtSpec i)
  | .pstore a i v => .pstore (rtSpec a) (rtSpec i) (rtSpec v)
  | .pfun n sig args => .pfun n sig (rtSpecL args)
/-- Pointwise round-trip shape of an argument list. -/
def rtSpecL : PTermList → PTermList
  | .nil => .nil
  | .cons x xs => .cons (rtSpec x) (rtSpecL xs)
end

mutual
/-- The formulas of the supported grammar, relative to a symbol table: the
side conditions pySMT's construction discipline guarantees for every formula
a client can hand to the bridge —
* every symbol occurrence agrees with the environment's symbol table (a name
  either is registered with this exact type, or is not registered at all);
* `Iff` takes Boolean arguments, `Equals` and `BVComp` take theory (non-Bool)
  arguments (pySMT's type checker enforces this split);
* n-ary nodes have at least two arguments (the formula manager collapses
  shorter argument lists before a node is ever built);
* function applications use the signature registered for their name;
* `Div` does not take integer-typed arguments.  Unlike the other conditions,
  this one does *not* come from pySMT's construction discipline — an integer
  `Div` is a perfectly constructible formula — it carves out a genuine failure
  of the round trip: `walk_div` lowers it through `Z3_mk_div`, which on
  integer sorts yields a `Z3_OP_IDIV` term, `_back_fun` has no entry for that
  kind, and `_back_single_term` ends in its `ConvertExpressionError` raise
  (the second conjunct of the C1 counterexample).
Arities of function applications are deliberately *not* restricted here: the
claim under test quantifies over arbitrary uninterpreted functions. -/
def admissible (tbl : SymTable) : PTerm → Bool
  | .ptrue => true
  | .pfalse => true
  | .psymbol n τ =>
      match tbl.vars n with
      | none => true
      | some τ' => decide (τ' = τ)
  | .pintc _ => true
  | .prealc _ => true
  | .pbvc _ _ => true
  | .pnary _ xs => decide (2 ≤ xs.lengthL) && admissibleL tbl xs
  | .pbin k a b =>
      (match k with
       | .iff => decide (ptype a = .bool)
       | .equals => !decide (ptype a = .bool)
       | .bvcomp => !decide (ptype a = .bool)
       | .div => !decide (ptype a = .int)
       | _ => true) && (admissible tbl a && admissible tbl b)
  | .punop _ a => admissible tbl a
  | .pparam _ a => admissible tbl a
  | .pite i t e => admissible tbl i && (admissible tbl t && admissible tbl e)
  | .pselect a i => admissible tbl a && admissible tbl i
  | .pstore a i v => admissible tbl a && (admissible tbl i && admissible tbl v)
  | .pfun n sig args => decide (tbl.funs n = some sig) && admissibleL tbl args
/-- All members of an argument list are admissible. -/
def admissibleL (tbl : SymTable) : PTermList → Bool
  | .nil => true
  | .cons x xs => admissible tbl x && admissibleL tbl xs
end

mutual
/-- A formula all of whose uninterpreted function applications have at most
two arguments (the arity region tolerated by the `_back_single_term`
assert). -/
def smallArity : PTerm → Bool
  | .ptrue => true
  | .pfalse => true
  | .psymbol _ _ => true
  | .pintc _ => true
  | .prealc _ => true
  | .pbvc _ _ => true
  | .pnary _ xs => smallArityL xs
  | .pbin _ a b => smallArity a && smallArity b
  | .punop _ a => smallArity a
  | .pparam _ a => smallArity a
  | .pite i t e => smallArity i && (smallArity t && smallArity e)
  | .pselect a i => smallArity a && smallArity i
  | .pstore a i v => smallArity a && (smallArity i && smallArity v)
  | .pfun _ _ args => decide (args.lengthL ≤ 2) && smallArityL args

/-- All members of an argument list satisfy `smallArity`. -/
def smallArityL : PTermList → Bool
  | .nil => true
  | .cons x xs => smallArity x && smallArityL xs
end

/-- `_z3_to_type` inverts `_type_to_z3`. -/
theorem zSortToType_typeToZ3 : ∀ τ : PType, zSortToType (typeToZ3 τ) = τ := by
  intro τ
  induction τ with
  | bool => rfl
  | int => rfl
  | real => rfl
  | bv w => rfl
  | arr i e ih1 ih2 => simp [typeToZ3, zSortToType, ih1, ih2]
  | custom n => rfl

mutual
/-- The round-trip shape preserves the static type of every node. -/
theorem rtSpec_ptype : ∀ f : PTerm, ptype (rtSpec f) = ptype f := by
  intro f
  cases f with
  | ptrue => rfl
  | pfalse => rfl
  | psymbol n τ => rfl
  | pintc z => rfl
  | prealc q => rfl
  | pbvc v w => rfl
  | pnary k xs =>
      cases k with
      | and => rfl
      | or => rfl
      | plus => cases xs with
        | nil => rfl
        | cons x t => simp [rtSpec, rtSpecL, ptype, rtSpec_ptype x]
      | times => cases xs with
        | nil => rfl
        | cons x t => simp [rtSpec, rtSpecL, ptype, rtSpec_ptype x]
  | pbin k a b =>
      cases k <;>
        simp [rtSpec, ptype, rtSpec_ptype a, rtSpec_ptype b]
  | punop k a =>
      cases k <;> simp [rtSpec, ptype, rtSpec_ptype a]
  | pparam k a =>
      cases k <;> simp [rtSpec, ptype, rtSpec_ptype a]
  | pite i t e =>
      by_cases h : ptype t = PType.bool
      · simp [rtSpec, ptype, h]
      · simp [rtSpec, ptype, h, rtSpec_ptype t]
  | pselect a i => simp [rtSpec, ptype, rtSpec_ptype a]
  | pstore a i v => simp [rtSpec, ptype, rtSpec_ptype a]
  | pfun n sig args => rfl
end


/-- Reduction of bind on a successful `Except` computation. -/
@[simp] theorem exceptOkBind {ε α β : Type _} (a : α) (f : α → Except ε β) :
    (Except.ok a : Except ε α) >>= f = f a := rfl

/-- Rebuilding an argument list from its list view is the identity. -/
theorem PTermList.ofList_toList : ∀ l : PTermList, PTermList.ofList l.toList = l := by
  intro l
  cases l with
  | nil => rfl
  | cons x xs => simp [PTermList.toList, PTermList.ofList, PTermList.ofList_toList xs]

/-- The list view preserves length. -/
theorem PTermList.toList_length : ∀ l : PTermList, l.toList.length = l.lengthL := by
  intro l
  cases l with
  | nil => rfl
  | cons x xs =>
      simp [PTermList.toList, PTermList.lengthL, PTermList.toList_length xs, Nat.add_comm]

/-- The round-trip shape preserves argument-list length. -/
theorem rtSpecL_lengthL : ∀ l : PTermList, (rtSpecL l).lengthL = l.lengthL := by
  intro l
  cases l with
  | nil => rfl
  | cons x xs => simp [rtSpecL, PTermList.lengthL, rtSpecL_lengthL xs]

/-- On argument lists of length at least two, `mgr.And` builds the AND node. -/
theorem mgrAnd_of_two : ∀ l : PTermList, 2 ≤ l.lengthL → mgrAnd l.toList = .pnary .and l := by
  intro l h
  match l with
  | .nil => simp [PTermList.lengthL] at h
  | .cons x .nil => simp [PTermList.lengthL] at h
  | .cons x (.cons y t) =>
      simp [PTermList.toList, mgrAnd, PTermList.ofList, PTermList.ofList_toList]

/-- On argument lists of length at least two, `mgr.Or` builds the OR node. -/
theorem mgrOr_of_two : ∀ l : PTermList, 2 ≤ l.lengthL → mgrOr l.toList = .pnary .or l := by
  intro l h
  match l with
  | .nil => simp [PTermList.lengthL] at h
  | .cons x .nil => simp [PTermList.lengthL] at h
  | .cons x (.cons y t) =>
      simp [PTermList.toList, mgrOr, PTermList.ofList, PTermList.ofList_toList]

/-- On argument lists of length at least two, `mgr.Plus` builds the PLUS node. -/
theorem mgrPlus_of_two : ∀ l : PTermList, 2 ≤ l.lengthL → mgrPlus l.toList = .pnary .plus l := by
  intro l h
  match l with
  | .nil => simp [PTermList.lengthL] at h
  | .cons x .nil => simp [PTermList.lengthL] at h
  | .cons x (.cons y t) =>
      simp [PTermList.toList, mgrPlus, PTermList.ofList, PTermList.ofList_toList]

/-- On argument lists of length at least two, `mgr.Times` builds the TIMES node. -/
theorem mgrTimes_of_two : ∀ l : PTermList, 2 ≤ l.lengthL → mgrTimes l.toList = .pnary .times l := by
  intro l h
  match l with
  | .nil => simp [PTermList.lengthL] at h
  | .cons x .nil => simp [PTermList.lengthL] at h
  | .cons x (.cons y t) =>
      simp [PTermList.toList, mgrTimes, PTermList.ofList, PTermList.ofList_toList]

/-- Admissibility of a binary node passes to its arguments. -/
theorem admissible_pbin_sub (tbl : SymTable) {k : PBinK} {a b : PTerm}
    (h : admissible tbl (.pbin k a b) = true) :
    admissible tbl a = true ∧ admissible tbl b = true := by
  cases k <;> simp [admissible] at h <;> tauto

/-- The type side condition of an admissible biconditional. -/
theorem admissible_iff_bool (tbl : SymTable) {a b : PTerm}
    (h : admissible tbl (.pbin .iff a b) = true) : ptype a = PType.bool := by
  simp [admissible] at h
  exact h.1

/-- The type side condition of an admissible equality. -/
theorem admissible_equals_not_bool (tbl : SymTable) {a b : PTerm}
    (h : admissible tbl (.pbin .equals a b) = true) : ¬ ptype a = PType.bool := by
  simp [admissible] at h
  exact h.1

/-- The type side condition of an admissible bitvector comparison. -/
theorem admissible_bvcomp_not_bool (tbl : SymTable) {a b : PTerm}
    (h : admissible tbl (.pbin .bvcomp a b) = true) : ¬ ptype a = PType.bool := by
  simp [admissible] at h
  exact h.1

/-- The type side condition of an admissible division. -/
theorem admissible_div_not_int (tbl : SymTable) {a b : PTerm}
    (h : admissible tbl (.pbin .div a b) = true) : ¬ ptype a = PType.int := by
  simp [admissible] at h
  exact h.1

mutual
/-- Syntactic characterisation of one round trip: on every admissible formula
of the supported grammar whose function applications stay within the arity
tolerated by the `_back_single_term` assert, back-converting the forward
conversion succeeds and produces exactly the `rtSpec` shape. -/
theorem backRec_convert (tbl : SymTable) (model : Option Nat) :
    ∀ f : PTerm, admissible tbl f = true → smallArity f = true →
      backRec tbl model (convert f) = .ok (rtSpec f) := by
  intro f hadm hsm
  cases f with
  | ptrue => rfl
  | pfalse => rfl
  | psymbol n τ =>
      cases htv : tbl.vars n with
      | none =>
          simp [convert, backRec, backSingleTerm, htv, rtSpec, zSortToType_typeToZ3]
      | some τ' =>
          simp [admissible, htv] at hadm
          simp [convert, backRec, backSingleTerm, htv, rtSpec, hadm]
  | pintc z => rfl
  | prealc q => rfl
  | pbvc v w => rfl
  | pnary k xs =>
      simp [admissible] at hadm
      simp [smallArity] at hsm
      have hl := backRecL_convertL tbl model xs hadm.2 hsm
      have hlen : 2 ≤ (rtSpecL xs).lengthL := by rw [rtSpecL_lengthL]; exact hadm.1
      cases k with
      | and =>
          simp [convert, kmapN, backRec, hl, backSingleTerm, zIsAnd, rtSpec,
                mgrAnd_of_two _ hlen]
      | or =>
          simp [convert, kmapN, backRec, hl, backSingleTerm, zIsOr, rtSpec,
                mgrOr_of_two _ hlen]
      | plus =>
          simp [convert, kmapN, backRec, hl, backSingleTerm, zIsAdd, rtSpec,
                mgrPlus_of_two _ hlen]
      | times =>
          simp [convert, kmapN, backRec, hl, backSingleTerm, zIsMul, rtSpec,
                mgrTimes_of_two _ hlen]
  | pbin k a b =>
      have hab := admissible_pbin_sub tbl hadm
      have hsmab : smallArity a = true ∧ smallArity b = true := by
        simp [smallArity] at hsm
        exact hsm
      have ha := backRec_convert tbl model a hab.1 hsmab.1
      have hb := backRec_convert tbl model b hab.2 hsmab.2
      cases k with
      | iff =>
          have ht : ptype (rtSpec a) = PType.bool := by
            rw [rtSpec_ptype]
            exact admissible_iff_bool tbl hadm
          simp [convert, kmapB, backRec, ha, hb, backSingleTerm, ht, rtSpec]
      | equals =>
          have ht : ¬ ptype (rtSpec a) = PType.bool := by
            rw [rtSpec_ptype]
            exact admissible_equals_not_bool tbl hadm
          simp [convert, kmapB, backRec, ha, hb, backSingleTerm, ht, rtSpec]
      | bvcomp =>
          have ht : ¬ ptype (rtSpec a) = PType.bool := by
            rw [rtSpec_ptype]
            exact admissible_bvcomp_not_bool tbl hadm
          simp [convert, backRec, ha, hb, backSingleTerm, ht, rtSpec, zIsIte]
      | implies => simp [convert, kmapB, backRec, ha, hb, backSingleTerm, rtSpec]
      | le => simp [convert, kmapB, backRec, ha, hb, backSingleTerm, rtSpec]
      | lt => simp [convert, kmapB, backRec, ha, hb, backSingleTerm, rtSpec]
      | div =>
          have ht : ¬ ptype a = PType.int := admissible_div_not_int tbl hadm
          simp [convert, backRec, ha, hb, backSingleTerm, ht, rtSpec]
      | pow => simp [convert, kmapB, backRec, ha, hb, backSingleTerm, rtSpec]
      | minus => simp [convert, kmapB, backRec, ha, hb, backSingleTerm, rtSpec]
      | bvand => simp [convert, kmapB, backRec, ha, hb, backSingleTerm, rtSpec]
      | bvor => simp [convert, kmapB, backRec, ha, hb, backSingleTerm, rtSpec]
      | bvxor => simp [convert, kmapB, backRec, ha, hb, backSingleTerm, rtSpec]
      | bvadd => simp [convert, kmapB, backRec, ha, hb, backSingleTerm, rtSpec]
      | bvsub => simp [convert, kmapB, backRec, ha, hb, backSingleTerm, rtSpec]
      | bvmul => simp [convert, kmapB, backRec, ha, hb, backSingleTerm, rtSpec]
      | bvudiv => simp [convert, kmapB, backRec, ha, hb, backSingleTerm, rtSpec]
      | bvurem => simp [convert, kmapB, backRec, ha, hb, backSingleTerm, rtSpec]
      | bvsdiv => simp [convert, kmapB, backRec, ha, hb, backSingleTerm, rtSpec]
      | bvsrem => simp [convert, kmapB, backRec, ha, hb, backSingleTerm, rtSpec]
      | bvshl => simp [convert, kmapB, backRec, ha, hb, backSingleTerm, rtSpec]
      | bvlshr => simp [convert, kmapB, backRec, ha, hb, backSingleTerm, rtSpec]
      | bvashr => simp [convert, kmapB, backRec, ha, hb, backSingleTerm, rtSpec]
      | bvconcat => simp [convert, kmapB, backRec, ha, hb, backSingleTerm, rtSpec]
      | bvult => simp [convert, kmapB, backRec, ha, hb, backSingleTerm, rtSpec]
      | bvule => simp [convert, kmapB, backRec, ha, hb, backSingleTerm, rtSpec]
      | bvslt => simp [convert, kmapB, backRec, ha, hb, backSingleTerm, rtSpec]
      | bvsle => simp [convert, kmapB, backRec, ha, hb, backSingleTerm, rtSpec]
  | punop k a =>
      have ha := backRec_convert tbl model a hadm hsm
      cases k <;> simp [convert, kmapU, backRec, ha, backSingleTerm, rtSpec]
  | pparam k a =>
      have ha := backRec_convert tbl model a hadm hsm
      cases k with
      | extract s e => simp [convert, backRec, ha, backSingleTerm, rtSpec]
      | zext n => simp [convert, backRec, ha, backSingleTerm, rtSpec]
      | sext n => simp [convert, backRec, ha, backSingleTerm, rtSpec]
      | rol n => simp [convert, backRec, ha, backSingleTerm, rtSpec, bvUnsignedValue]
      | ror n => simp [convert, backRec, ha, backSingleTerm, rtSpec, bvUnsignedValue]
  | pite i t e =>
      simp [admissible] at hadm
      simp [smallArity] at hsm
      have hi := backRec_convert tbl model i hadm.1 hsm.1
      have ht := backRec_convert tbl model t hadm.2.1 hsm.2.1
      have he := backRec_convert tbl model e hadm.2.2 hsm.2.2
      by_cases hb : ptype t = PType.bool
      · simp [convert, ptype, hb, backRec, backRecL, hi, ht, he, backSingleTerm,
              zIsAnd, zIsOr, rtSpec, mgrAnd, mgrOr, PTermList.ofList]
      · simp [convert, ptype, hb, backRec, hi, ht, he, backSingleTerm, zIsIte, rtSpec]
  | pselect a i =>
      simp [admissible] at hadm
      simp [smallArity] at hsm
      have ha := backRec_convert tbl model a hadm.1 hsm.1
      have hi := backRec_convert tbl model i hadm.2 hsm.2
      simp [convert, backRec, ha, hi, backSingleTerm, rtSpec]
  | pstore a i v =>
      simp [admissible] at hadm
      simp [smallArity] at hsm
      have ha := backRec_convert tbl model a hadm.1 hsm.1
      have hi := backRec_convert tbl model i hadm.2.1 hsm.2.1
      have hv := backRec_convert tbl model v hadm.2.2 hsm.2.2
      simp [convert, backRec, ha, hi, hv, backSingleTerm, zIsArrayStore, rtSpec]
  | pfun n sig args =>
      simp [admissible] at hadm
      simp [smallArity] at hsm
      have hl := backRecL_convertL tbl model args hadm.2 hsm.2
      have hlen : (rtSpecL args).toList.length ≤ 2 := by
        rw [PTermList.toList_length, rtSpecL_lengthL]
        exact hsm.1
      simp [convert, backRec, hl, backSingleTerm, hadm.1, rtSpec,
            PTermList.ofList_toList, Nat.not_lt.mpr hlen]
/-- Pointwise form of `backRec_convert` on argument lists. -/
theorem backRecL_convertL (tbl : SymTable) (model : Option Nat) :
    ∀ l : PTermList, admissibleL tbl l = true → smallArityL l = true →
      backRecL tbl model (convertL l) = .ok (rtSpecL l).toList := by
  intro l hadm hsm
  cases l with
  | nil => rfl
  | cons x xs =>
      simp [admissibleL] at hadm
      simp [smallArityL] at hsm
      have hx := backRec_convert tbl model x hadm.1 hsm.1
      have hxs := backRecL_convertL tbl model xs hadm.2 hsm.2
      simp [convertL, backRecL, hx, hxs, rtSpecL, PTermList.toList]
end

mutual
/-- Semantic values for the supported grammar: Booleans, integers, rationals
(pySMT reals), width-tagged bitvectors, arrays as a default value plus an
explicit entry list, and opaque members of custom sorts. -/
inductive Val where
  | vB : Bool → Val
  | vI : Int → Val
  | vR : Rat → Val
  | vBV : Nat → Nat → Val                   -- width, value
  | vArr : Val → ValEntries → Val
  | vU : String → Nat → Val
deriving DecidableEq
/-- Explicit (index, value) entries of an array value; earlier entries
shadow later ones. -/
inductive ValEntries where
  | nil : ValEntries
  | cons : Val → Val → ValEntries → ValEntries
deriving DecidableEq
end

/-- Read a Boolean from a value (false on other shapes). -/
def asB : Val → Bool
  | .vB b => b
  | _ => false

/-- Read an integer from a value (0 on other shapes). -/
def asI : Val → Int
  | .vI i => i
  | _ => 0

/-- Read a rational from a value (0 on other shapes). -/
def asR : Val → Rat
  | .vR q => q
  | _ => 0

/-- Width of a bitvector value (0 on other shapes). -/
def asBVw : Val → Nat
  | .vBV w _ => w
  | _ => 0

/-- Payload of a bitvector value (0 on other shapes). -/
def asBVv : Val → Nat
  | .vBV _ v => v
  | _ => 0

/-- First entry for the given index, if any. -/
def entLookup : ValEntries → Val → Option Val
  | .nil, _ => none
  | .cons k v rest, x => if k = x then some v else entLookup rest x

/-- Signed reading of a `w`-bit payload. -/
def bvToInt (w v : Nat) : Int :=
  if 2 * v < 2 ^ w then (v : Int) else (v : Int) - 2 ^ w

/-- Truncate an integer to a `w`-bit payload. -/
def intToBV (w : Nat) (i : Int) : Nat :=
  (i % (2 ^ w : Nat)).toNat

/-- Coerce a value to the given static type: Booleans, numerals and
bitvectors are read through the `as*` projections; array and custom values
are left as they are.  Used where the evaluation of an if-then-else merges
its branches. -/
def vNorm : PType → Val → Val
  | .bool, v => .vB (asB v)
  | .int, v => .vI (asI v)
  | .real, v => .vR (asR v)
  | .bv w, v => .vBV w (asBVv v % 2 ^ w)
  | .arr _ _, v => v
  | .custom _, v => v

/-- An interpretation of the symbols: a value for every variable name and a
function on values for every function name. -/
structure PEnv where
  vars : String → Val
  funs : String → List Val → Val

/-- Left rotation of a `w`-bit payload by `n`. -/
def bvRotl (w n v : Nat) : Nat :=
  if w = 0 then v
  else ((v % 2 ^ w) * 2 ^ (n % w) + (v % 2 ^ w) / 2 ^ (w - n % w)) % 2 ^ w

/-- Right rotation of a `w`-bit payload by `n`. -/
def bvRotr (w n v : Nat) : Nat :=
  if w = 0 then v
  else ((v % 2 ^ w) / 2 ^ (n % w) + (v % 2 ^ w) * 2 ^ (w - n % w)) % 2 ^ w

mutual
/-- Denotational semantics of the supported grammar under an interpretation.
Logical equivalence of two formulas is sameness of this denotation under
every interpretation.  Value shapes that a well-typed formula cannot produce
are read through the (arbitrary but fixed) `as*` defaults; if-then-else
coerces the merged branch value to the branch type, so that the semantics is
insensitive to which syntactic form of a Boolean connective produced it. -/
def psem (env : PEnv) : PTerm → Val
  | .ptrue => .vB true
  | .pfalse => .vB false
  | .psymbol n _ => env.vars n
  | .pintc z => .vI z
  | .prealc q => .vR q
  | .pbvc v w => .vBV w v
  | .pnary k xs =>
      match k with
      | .and => .vB ((psemL env xs).all asB)
      | .or => .vB ((psemL env xs).any asB)
      | .plus =>
          match xs with
          | .nil => .vI 0
          | .cons x _ =>
              if ptype x = .real then .vR (((psemL env xs).map asR).sum)
              else .vI (((psemL env xs).map asI).sum)
      | .times =>
          match xs with
          | .nil => .vI 1
          | .cons x _ =>
              if ptype x = .real then .vR (((psemL env xs).map asR).prod)
              else .vI (((psemL env xs).map asI).prod)
  | .pbin k a b =>
      match k with
      | .implies => .vB (!asB (psem env a) || asB (psem env b))
      | .iff => .vB (asB (psem env a) == asB (psem env b))
      | .equals => .vB (decide (psem env a = psem env b))
      | .le =>
          if ptype a = .real then .vB (decide (asR (psem env a) ≤ asR (psem env b)))
          else .vB (decide (asI (psem env a) ≤ asI (psem env b)))
      | .lt =>
          if ptype a = .real then .vB (decide (asR (psem env a) < asR (psem env b)))
          else .vB (decide (asI (psem env a) < asI (psem env b)))
      | .div =>
          if ptype a = .real then .vR (asR (psem env a) / asR (psem env b))
          else .vI (asI (psem env a) / asI (psem env b))
      | .pow =>
          if ptype a = .real then .vR (asR (psem env a) ^ (asI (psem env b)).toNat)
          else .vI (asI (psem env a) ^ (asI (psem env b)).toNat)
      | .minus =>
          if ptype a = .real then .vR (asR (psem env a) - asR (psem env b))
          else .vI (asI (psem env a) - asI (psem env b))
      | .bvand =>
          .vBV (asBVw (psem env a)) (Nat.land (asBVv (psem env a)) (asBVv (psem env b)))
      | .bvor =>
          .vBV (asBVw (psem env a)) (Nat.lor (asBVv (psem env a)) (asBVv (psem env b)))
      | .bvxor =>
          .vBV (asBVw (psem env a)) (Nat.xor (asBVv (psem env a)) (asBVv (psem env b)))
      | .bvadd =>
          .vBV (asBVw (psem env a))
            ((asBVv (psem env a) + asBVv (psem env b)) % 2 ^ asBVw (psem env a))
      | .bvsub =>
          .vBV (asBVw (psem env a))
            (intToBV (asBVw (psem env a)) ((asBVv (psem env a) : Int) - asBVv (psem env b)))
      | .bvmul =>
          .vBV (asBVw (psem env a))
            ((asBVv (psem env a) * asBVv (psem env b)) % 2 ^ asBVw (psem env a))
      | .bvudiv =>
          .vBV (asBVw (psem env a))
            (if asBVv (psem env b) % 2 ^ asBVw (psem env a) = 0 then 2 ^ asBVw (psem env a) - 1
             else (asBVv (psem env a) % 2 ^ asBVw (psem env a)) / (asBVv (psem env b) % 2 ^ asBVw (psem env a)))
      | .bvurem =>
          .vBV (asBVw (psem env a))
            (if asBVv (psem env b) % 2 ^ asBVw (psem env a) = 0 then asBVv (psem env a) % 2 ^ asBVw (psem env a)
             else (asBVv (psem env a) % 2 ^ asBVw (psem env a)) % (asBVv (psem env b) % 2 ^ asBVw (psem env a)))
      | .bvsdiv =>
          .vBV (asBVw (psem env a))
            (intToBV (asBVw (psem env a))
              ((bvToInt (asBVw (psem env a)) (asBVv (psem env a))).tdiv
               (bvToInt (asBVw (psem env a)) (asBVv (psem env b)))))
      | .bvsrem =>
          .vBV (asBVw (psem env a))
            (intToBV (asBVw (psem env a))
              ((bvToInt (asBVw (psem env a)) (asBVv (psem env a))).tmod
               (bvToInt (asBVw (psem env a)) (asBVv (psem env b)))))
      | .bvshl =>
          .vBV (asBVw (psem env a))
            ((asBVv (psem env a) * 2 ^ asBVv (psem env b)) % 2 ^ asBVw (psem env a))
      | .bvlshr =>
          .vBV (asBVw (psem env a))
            ((asBVv (psem env a) % 2 ^ asBVw (psem env a)) / 2 ^ asBVv (psem env b))
      | .bvashr =>
          .vBV (asBVw (psem env a))
            (intToBV (asBVw (psem env a))
              ((bvToInt (asBVw (psem env a)) (asBVv (psem env a))) / 2 ^ asBVv (psem env b)))
      | .bvconcat =>
          .vBV (asBVw (psem env a) + asBVw (psem env b))
            ((asBVv (psem env a)) * 2 ^ asBVw (psem env b) + asBVv (psem env b) % 2 ^ asBVw (psem env b))
      | .bvult =>
          .vB (decide (asBVv (psem env a) % 2 ^ asBVw (psem env a) <
                       asBVv (psem env b) % 2 ^ asBVw (psem env a)))
      | .bvule =>
          .vB (decide (asBVv (psem env a) % 2 ^ asBVw (psem env a) ≤
                       asBVv (psem env b) % 2 ^ asBVw (psem env a)))
      | .bvslt =>
          .vB (decide (bvToInt (asBVw (psem env a)) (asBVv (psem env a)) <
                       bvToInt (asBVw (psem env a)) (asBVv (psem env b))))
      | .bvsle =>
          .vB (decide (bvToInt (asBVw (psem env a)) (asBVv (psem env a)) ≤
                       bvToInt (asBVw (psem env a)) (asBVv (psem env b))))
      | .bvcomp => .vBV 1 (if psem env a = psem env b then 1 else 0)
  | .punop k a =>
      match k with
      | .not => .vB (!asB (psem env a))
      | .toreal => .vR ((asI (psem env a) : Rat))
      | .bvnot =>
          .vBV (asBVw (psem env a)) (2 ^ asBVw (psem env a) - 1 - asBVv (psem env a) % 2 ^ asBVw (psem env a))
      | .bvneg =>
          .vBV (asBVw (psem env a)) (intToBV (asBVw (psem env a)) (-(asBVv (psem env a) : Int)))
      | .bvtonat => .vI (asBVv (psem env a) % 2 ^ asBVw (psem env a))
  | .pparam k a =>
      match k with
      | .extract s e =>
          .vBV (e - s + 1) ((asBVv (psem env a) / 2 ^ s) % 2 ^ (e - s + 1))
      | .zext n =>
          .vBV (asBVw (psem env a) + n) (asBVv (psem env a) % 2 ^ asBVw (psem env a))
      | .sext n =>
          .vBV (asBVw (psem env a) + n)
            (intToBV (asBVw (psem env a) + n) (bvToInt (asBVw (psem env a)) (asBVv (psem env a))))
      | .rol n => .vBV (asBVw (psem env a)) (bvRotl (asBVw (psem env a)) n (asBVv (psem env a)))
      | .ror n => .vBV (asBVw (psem env a)) (bvRotr (asBVw (psem env a)) n (asBVv (psem env a)))
  | .pite i t e =>
      vNorm (ptype t) (if asB (psem env i) then psem env t else psem env e)
  | .pselect a i =>
      match psem env a with
      | .vArr d es => (entLookup es (psem env i)).getD d
      | v => v
  | .pstore a i x =>
      match psem env a with
      | .vArr d es => .vArr d (.cons (psem env i) (psem env x) es)
      | v => v
  | .pfun n _ args => env.funs n (psemL env args)
/-- Pointwise semantics of an argument list. -/
def psemL (env : PEnv) : PTermList → List Val
  | .nil => []
  | .cons x xs => psem env x :: psemL env xs
end

/-- On every kind, the denotation of a binary node depends only on the
denotations and static types of its arguments. -/
theorem psem_pbin_congr (env : PEnv) (k : PBinK) {a a' b b' : PTerm}
    (h1 : psem env a' = psem env a) (h2 : psem env b' = psem env b)
    (h3 : ptype a' = ptype a) :
    psem env (.pbin k a' b') = psem env (.pbin k a b) := by
  cases k <;> simp [psem, h1, h2, h3]

/-- On every kind other than `bvcomp`, the round-trip shape of a binary node
is the same binary node over round-tripped arguments. -/
theorem rtSpec_pbin (k : PBinK) (hk : ¬ k = PBinK.bvcomp) (a b : PTerm) :
    rtSpec (.pbin k a b) = .pbin k (rtSpec a) (rtSpec b) := by
  cases k <;> simp_all [rtSpec]

mutual
/-- The round-trip shape is semantically transparent: it denotes the same
value as the original formula under every interpretation. -/
theorem psem_rtSpec (env : PEnv) : ∀ f : PTerm, psem env (rtSpec f) = psem env f := by
  intro f
  cases f with
  | ptrue => rfl
  | pfalse => rfl
  | psymbol n τ => rfl
  | pintc z => rfl
  | prealc q => rfl
  | pbvc v w => rfl
  | pnary k xs =>
      have hxs := psemL_rtSpecL env xs
      cases k with
      | and => simp [rtSpec, psem, hxs]
      | or => simp [rtSpec, psem, hxs]
      | plus =>
          cases xs with
          | nil => rfl
          | cons x t =>
              simp [rtSpec, rtSpecL, psem, rtSpec_ptype x]
              have := psemL_rtSpecL env (PTermList.cons x t)
              simp [rtSpecL] at this
              simp [this]
      | times =>
          cases xs with
          | nil => rfl
          | cons x t =>
              simp [rtSpec, rtSpecL, psem, rtSpec_ptype x]
              have := psemL_rtSpecL env (PTermList.cons x t)
              simp [rtSpecL] at this
              simp [this]
  | pbin k a b =>
      have ha := psem_rtSpec env a
      have hb := psem_rtSpec env b
      by_cases hk : k = PBinK.bvcomp
      · subst hk
        simp [rtSpec, psem, ha, hb, ptype, vNorm, asBVv]
        by_cases he : psem env a = psem env b <;> simp [he, asB, asBVv]
      · rw [rtSpec_pbin k hk]
        exact psem_pbin_congr env k ha hb (rtSpec_ptype a)
  | punop k a =>
      have ha := psem_rtSpec env a
      cases k <;> simp [rtSpec, psem, ha]
  | pparam k a =>
      have ha := psem_rtSpec env a
      cases k <;> simp [rtSpec, psem, ha]
  | pite i t e =>
      have hi := psem_rtSpec env i
      have ht := psem_rtSpec env t
      have he := psem_rtSpec env e
      by_cases hb : ptype t = PType.bool
      · simp [rtSpec, ptype, hb, psem, psemL, hi, ht, he, vNorm]
        cases hc : asB (psem env i) <;> simp [hc, asB]
      · simp [rtSpec, ptype, hb, psem, hi, ht, he, rtSpec_ptype t]
  | pselect a i =>
      simp [rtSpec, psem, psem_rtSpec env a, psem_rtSpec env i]
  | pstore a i v =>
      simp [rtSpec, psem, psem_rtSpec env a, psem_rtSpec env i, psem_rtSpec env v]
  | pfun n sig args =>
      simp [rtSpec, psem, psemL_rtSpecL env args]
/-- Pointwise form of `psem_rtSpec` on argument lists. -/
theorem psemL_rtSpecL (env : PEnv) : ∀ l : PTermList, psemL env (rtSpecL l) = psemL env l := by
  intro l
  cases l with
  | nil => rfl
  | cons x xs => simp [rtSpecL, psemL, psem_rtSpec env x, psemL_rtSpecL env xs]
end

/-- Reduction of bind on a failed `Except` computation. -/
@[simp] theorem exceptErrBind {ε α β : Type _} (e : ε) (f : α → Except ε β) :
    (Except.error e : Except ε α) >>= f = .error e := rfl

/-- `backRec` over a plain list of terms (the order in which the worklist
resolves the children of a node). -/
def backRecList (tbl : SymTable) (model : Option Nat) : List ZTerm → Except BErr (List PTerm)
  | [] => .ok []
  | c :: cs => do
      let r ← backRec tbl model c
      let rs ← backRecList tbl model cs
      .ok (r :: rs)

/-- `backRecL` agrees with `backRecList` on the list view. -/
theorem backRecL_toList (tbl : SymTable) (model : Option Nat) :
    ∀ l : ZTermList, backRecL tbl model l = backRecList tbl model l.toList := by
  intro l
  cases l with
  | nil => rfl
  | cons x xs =>
      simp [backRecL, ZTermList.toList, backRecList, backRecL_toList tbl model xs]

/-- `backRec` is: back-convert the children in order, then dispatch on the
node — exactly the step the worklist performs once all children are
resolved. -/
theorem backRec_eq (tbl : SymTable) (model : Option Nat) (e : ZTerm) :
    backRec tbl model e =
      (backRecList tbl model e.children) >>= fun args => backSingleTerm tbl e args model := by
  cases e with
  | ztrue => rfl
  | zfalse => rfl
  | zintv z => rfl
  | zrealv q => rfl
  | zbvv v w => rfl
  | zconst n s => rfl
  | znary k xs =>
      simp [backRec, ZTerm.children, backRecL_toList]
  | zbin k a b =>
      simp [backRec, ZTerm.children, backRecList]
  | zun k a =>
      simp [backRec, ZTerm.children, backRecList]
  | zparam k a =>
      simp [backRec, ZTerm.children, backRecList]
  | zite a b c =>
      simp [backRec, ZTerm.children, backRecList]
  | zselect a b =>
      simp [backRec, ZTerm.children, backRecList]
  | zstore a b c =>
      simp [backRec, ZTerm.children, backRecList]
  | zfun n xs =>
      simp [backRec, ZTerm.children, backRecL_toList]

/-- If a list back-converts successfully, so does each member. -/
theorem backRecList_mem_ok (tbl : SymTable) (model : Option Nat) :
    ∀ (cs : List ZTerm) (vs : List PTerm), backRecList tbl model cs = .ok vs →
      ∀ c ∈ cs, ∃ u, backRec tbl model c = .ok u := by
  intro cs
  induction cs with
  | nil => intro vs _ c hc; cases hc
  | cons c cs ih =>
      intro vs hvs d hd
      cases hc : backRec tbl model c with
      | error err => simp [backRecList, hc] at hvs
      | ok u =>
          cases hcs : backRecList tbl model cs with
          | error err => simp [backRecList, hc, hcs] at hvs
          | ok us =>
              rcases List.mem_cons.mp hd with h | h
              · exact ⟨u, h ▸ hc⟩
              · exact ih us hcs d h

/-- Every term has at least one node. -/
theorem zsize_pos : ∀ e : ZTerm, 1 ≤ zsize e := by
  intro e
  cases e <;> simp [zsize] <;> omega

/-- The size of the list view is the mutual list size. -/
theorem zsizeL_toList : ∀ l : ZTermList, (l.toList.map zsize).sum = zsizeL l := by
  intro l
  cases l with
  | nil => rfl
  | cons x xs => simp [ZTermList.toList, zsizeL, zsizeL_toList xs]

/-- A term is one node plus its children. -/
theorem zsize_children : ∀ e : ZTerm, zsize e = 1 + ((ZTerm.children e).map zsize).sum := by
  intro e
  cases e <;> simp [zsize, ZTerm.children, zsizeL_toList] <;> omega

/-- Children are strictly smaller. -/
theorem zsize_child_lt {e c : ZTerm} (hc : c ∈ ZTerm.children e) : zsize c < zsize e := by
  have h1 : zsize c ≤ ((ZTerm.children e).map zsize).sum :=
    List.single_le_sum (by intro x _; exact Nat.zero_le x) _ (List.mem_map_of_mem zsize hc)
  have h2 := zsize_children e
  omega

/-- Invariant on the memo table: every resolved entry for this model context
holds the `backRec` denotation of its key. -/
def MGood (tbl : SymTable) (model : Option Nat) (memo : Memo) : Prop :=
  ∀ k v, memo (k, model) = some (some v) → backRec tbl model k = .ok v

/-- All in-progress entries for this model context are strictly larger than
`x` (in particular, no sub-term of `x` is in progress). -/
def MPend (model : Option Nat) (memo : Memo) (x : ZTerm) : Prop :=
  ∀ k, memo (k, model) = some none → zsize x < zsize k

/-- `memo'` preserves every resolved entry of `memo` (all keys, all model
contexts). -/
def MExt (memo memo' : Memo) : Prop :=
  ∀ q v, memo q = some (some v) → memo' q = some (some v)

/-- `memo` and `memo'` have the same in-progress entries. -/
def MPendEq (memo memo' : Memo) : Prop :=
  ∀ q, memo' q = some none ↔ memo q = some none

/-- Running the loop on an empty stack returns the memo unchanged. -/
theorem backLoop_nil (tbl : SymTable) (model : Option Nat) :
    ∀ (m : Nat) (memo : Memo), backLoop tbl model m memo [] = .ok memo := by
  intro m memo
  cases m <;> rfl

/-- Updating a key reads back the new value. -/
theorem Memo.upd_self (m : Memo) (k : BackKey) (v : Option (Option PTerm)) :
    (m.upd k v) k = v := by
  simp [Memo.upd]

/-- Updating a key leaves the others unchanged. -/
theorem Memo.upd_other (m : Memo) (k : BackKey) (v : Option (Option PTerm))
    (q : BackKey) (h : ¬ q = k) : (m.upd k v) q = m q := by
  simp [Memo.upd, h]

/-- When all the entries of a resolved child list are recorded in the memo,
the argument fetch of the worklist's resolution step reads back exactly the
`backRecList` values. -/
theorem argsFromMemo (tbl : SymTable) (model : Option Nat) (memo : Memo) :
    ∀ (cs : List ZTerm) (vs : List PTerm), backRecList tbl model cs = .ok vs →
      (∀ c ∈ cs, ∀ u, backRec tbl model c = .ok u → memo (c, model) = some (some u)) →
      cs.map (fun c => ((memo (c, model)).getD none).getD .ptrue) = vs := by
  intro cs
  induction cs with
  | nil =>
      intro vs hvs _
      simp [backRecList] at hvs
      simp [hvs.symm]
  | cons c cs ihl =>
      intro vs hvs hdone
      cases hc : backRec tbl model c with
      | error err => simp [backRecList, hc] at hvs
      | ok u =>
          cases hcs : backRecList tbl model cs with
          | error err => simp [backRecList, hc, hcs] at hvs
          | ok us =>
              simp [backRecList, hc, hcs] at hvs
              have h1 := hdone c (by simp) u hc
              rw [List.map_cons, h1, ← hvs]
              simp only [Option.getD_some, List.cons.injEq, true_and]
              exact ihl us hcs (fun d hd => hdone d (by simp [hd]))

/-- Sum of a reversed list of naturals. -/
theorem natSum_reverse : ∀ l : List Nat, l.reverse.sum = l.sum := by
  intro l
  induction l with
  | nil => rfl
  | cons x xs ih => simp [ih, Nat.add_comm]

/-- Specification of one resolved run of the worklist on `e :: rest`: some
fuel `n` bounded by twice the size of `e` takes the loop from `memo` to a
memo `memo'` with `rest` left on the stack, where `memo'` is again good,
preserves resolved entries, has the same in-progress entries, and has
resolved `e` to its `backRec` denotation. -/
def LoopDone (tbl : SymTable) (model : Option Nat) (e : ZTerm) (v : PTerm)
    (memo : Memo) (rest : List ZTerm) : Prop :=
  ∃ n memo', n ≤ 2 * zsize e ∧
    (∀ m, backLoop tbl model (n + m) memo (e :: rest) = backLoop tbl model m memo' rest) ∧
    MGood tbl model memo' ∧ MExt memo memo' ∧ MPendEq memo memo' ∧
    memo' (e, model) = some (some v)

/-- Processing a list of resolvable terms: the inner induction of the
worklist-correctness proof, parameterised by the induction hypothesis for
terms of size at most `N`. -/
theorem loopList (tbl : SymTable) (model : Option Nat) (N : Nat)
    (ih : ∀ e', zsize e' ≤ N → ∀ (v : PTerm) (memo : Memo) (rest : List ZTerm),
        MGood tbl model memo → MPend model memo e' → backRec tbl model e' = .ok v →
        LoopDone tbl model e' v memo rest) :
    ∀ (cs : List ZTerm), (∀ c ∈ cs, zsize c ≤ N) →
      (∀ c ∈ cs, ∃ u, backRec tbl model c = .ok u) →
      ∀ (memo : Memo) (rest : List ZTerm), MGood tbl model memo →
      (∀ c ∈ cs, MPend model memo c) →
      ∃ n memo', n ≤ 2 * (cs.map zsize).sum ∧
        (∀ m, backLoop tbl model (n + m) memo (cs ++ rest) = backLoop tbl model m memo' rest) ∧
        MGood tbl model memo' ∧ MExt memo memo' ∧ MPendEq memo memo' ∧
        (∀ c ∈ cs, ∀ u, backRec tbl model c = .ok u → memo' (c, model) = some (some u)) := by
  intro cs
  induction cs with
  | nil =>
      intro _ _ memo rest hGood _
      refine ⟨0, memo, by simp, ?_, hGood, fun q u h => h, fun q => Iff.rfl, by simp⟩
      intro m
      simp
  | cons c cs ihl =>
      intro hsz hok memo rest hGood hpend
      obtain ⟨u, hu⟩ := hok c (by simp)
      obtain ⟨n1, memo1, hb1, heq1, hg1, hext1, hpe1, hdone1⟩ :=
        ih c (hsz c (by simp)) u memo (cs ++ rest) hGood (hpend c (by simp)) hu
      obtain ⟨n2, memo2, hb2, heq2, hg2, hext2, hpe2, hdone2⟩ :=
        ihl (fun d hd => hsz d (by simp [hd])) (fun d hd => hok d (by simp [hd])) memo1 rest hg1
          (by
            intro d hd k hk
            exact hpend d (by simp [hd]) k ((hpe1 (k, model)).mp hk))
      refine ⟨n1 + n2, memo2, ?_, ?_, hg2, ?_, ?_, ?_⟩
      · simp only [List.map_cons, List.sum_cons]
        omega
      · intro m
        rw [Nat.add_assoc]
        have : (c :: cs) ++ rest = c :: (cs ++ rest) := rfl
        rw [this, heq1 (n2 + m)]
        exact heq2 m
      · intro q v h
        exact hext2 q v (hext1 q v h)
      · intro q
        exact Iff.trans (hpe2 q) (hpe1 q)
      · intro d hd u' hu'
        rcases List.mem_cons.mp hd with h | h
        · subst h
          rw [hu] at hu'
          have : u = u' := Except.ok.inj hu'
          subst this
          exact hext2 (d, model) u hdone1
        · exact hdone2 d h u' hu'

/-- Worklist correctness: from any good memo whose in-progress entries are
all larger than `e`, the loop resolves a `backRec`-resolvable `e` (within
fuel `2 * zsize e`) to exactly its `backRec` denotation, touching nothing
else. -/
theorem loopMain (tbl : SymTable) (model : Option Nat) :
    ∀ (N : Nat) (e : ZTerm), zsize e ≤ N → ∀ (v : PTerm) (memo : Memo) (rest : List ZTerm),
      MGood tbl model memo → MPend model memo e → backRec tbl model e = .ok v →
      LoopDone tbl model e v memo rest := by
  intro N
  induction N with
  | zero =>
      intro e he
      exact absurd he (by have := zsize_pos e; omega)
  | succ N ih =>
      intro e he v memo rest hGood hPend hv
      cases hm : memo (e, model) with
      | some val =>
          cases val with
          | none => exact absurd (hPend e hm) (by omega)
          | some w =>
              have hw := hGood e w hm
              have hvw : w = v := by
                rw [hv] at hw
                exact (Except.ok.inj hw).symm
              refine ⟨1, memo, by have := zsize_pos e; omega, ?_, hGood,
                      fun q u h => h, fun q => Iff.rfl, by rw [hm, hvw]⟩
              intro m
              rw [Nat.add_comm]
              simp [backLoop, hm]
      | none =>
          have hchsz : ∀ c ∈ (ZTerm.children e).reverse, zsize c ≤ N := by
            intro c hc
            have := zsize_child_lt (List.mem_reverse.mp hc)
            omega
          have hargsOk : ∃ vs, backRecList tbl model (ZTerm.children e) = .ok vs ∧
              backSingleTerm tbl e vs model = .ok v := by
            have h := backRec_eq tbl model e
            rw [hv] at h
            cases hl : backRecList tbl model (ZTerm.children e) with
            | error err => rw [hl] at h; simp at h
            | ok vs =>
                rw [hl] at h
                simp at h
                exact ⟨vs, rfl, h.symm⟩
          obtain ⟨vs, hvs, hsingle⟩ := hargsOk
          have hchok : ∀ c ∈ (ZTerm.children e).reverse, ∃ u, backRec tbl model c = .ok u := by
            intro c hc
            exact backRecList_mem_ok tbl model _ vs hvs c (List.mem_reverse.mp hc)
          have hg1 : MGood tbl model (memo.upd (e, model) (some none)) := by
            intro k u hk
            apply hGood k u
            by_cases hq : ((k, model) : BackKey) = (e, model)
            · rw [hq, Memo.upd_self] at hk
              cases hk
            · rw [Memo.upd_other _ _ _ _ hq] at hk
              exact hk
          have hp1 : ∀ c ∈ (ZTerm.children e).reverse,
              MPend model (memo.upd (e, model) (some none)) c := by
            intro c hc k hk
            have hclt : zsize c < zsize e := zsize_child_lt (List.mem_reverse.mp hc)
            by_cases hq : ((k, model) : BackKey) = (e, model)
            · have hke : k = e := by
                simpa using congrArg Prod.fst hq
              rw [hke]
              omega
            · rw [Memo.upd_other _ _ _ _ hq] at hk
              have := hPend k hk
              omega
          obtain ⟨n2, memo2, hb2, heq2, hg2, hext2, hpe2, hdone2⟩ :=
            loopList tbl model N ih (ZTerm.children e).reverse hchsz hchok
              (memo.upd (e, model) (some none)) (e :: rest) hg1 hp1
          have hm2e : memo2 (e, model) = some none := by
            rw [hpe2 (e, model), Memo.upd_self]
          have hargs : (ZTerm.children e).map
              (fun c => ((memo2 (c, model)).getD none).getD .ptrue) = vs := by
            apply argsFromMemo tbl model memo2 _ vs hvs
            intro c hc u hu
            exact hdone2 c (List.mem_reverse.mpr hc) u hu
          refine ⟨n2 + 2, memo2.upd (e, model) (some (some v)), ?_, ?_, ?_, ?_, ?_, ?_⟩
          · have hsum : ((ZTerm.children e).reverse.map zsize).sum
                = ((ZTerm.children e).map zsize).sum := by
              rw [List.map_reverse]
              exact natSum_reverse _
            have := zsize_children e
            rw [hsum] at hb2
            omega
          · intro m
            have e1 : n2 + 2 + m = (n2 + (1 + m)) + 1 := by omega
            rw [e1]
            have step1 : backLoop tbl model ((n2 + (1 + m)) + 1) memo (e :: rest)
                = backLoop tbl model (n2 + (1 + m)) (memo.upd (e, model) (some none))
                    ((ZTerm.children e).reverse ++ e :: rest) := by
              simp [backLoop, hm]
            rw [step1, heq2 (1 + m)]
            have e2 : 1 + m = m + 1 := by omega
            rw [e2]
            simp only [backLoop, hm2e, hargs, hsingle]
          · intro k u hk
            by_cases hq : ((k, model) : BackKey) = (e, model)
            · rw [hq, Memo.upd_self] at hk
              have hke : k = e := by
                simpa using congrArg Prod.fst hq
              have hvu : v = u := by
                simpa using hk
              rw [hke, ← hvu]
              exact hv
            · rw [Memo.upd_other _ _ _ _ hq] at hk
              exact hg2 k u hk
          · intro q u hq0
            by_cases hq : q = (e, model)
            · rw [hq, hm] at hq0
              cases hq0
            · rw [Memo.upd_other _ _ _ _ hq]
              apply hext2
              rw [Memo.upd_other _ _ _ _ hq]
              exact hq0
          · intro q
            by_cases hq : q = (e, model)
            · rw [hq, Memo.upd_self, hm]
              simp
            · rw [Memo.upd_other _ _ _ _ hq]
              rw [hpe2 q, Memo.upd_other _ _ _ _ hq]
          · rw [Memo.upd_self]

/-- Correctness of `Z3Converter.back`: from any memo table that is good for
the model context and has no leftover in-progress entries, the method
computes exactly the structural denotation `backRec` and returns an equally
good table. -/
theorem back_eq_backRec (tbl : SymTable) (memo : Memo) (expr : ZTerm)
    (model : Option Nat) (v : PTerm)
    (hGood : MGood tbl model memo)
    (hNoPend : ∀ k, ¬ memo (k, model) = some none)
    (hv : backRec tbl model expr = .ok v) :
    ∃ memo', Z3Converter.back tbl memo expr model = .ok (v, memo') ∧
      MGood tbl model memo' ∧ MExt memo memo' ∧
      (∀ k, ¬ memo' (k, model) = some none) := by
  have hPend : MPend model memo expr := fun k hk => absurd hk (hNoPend k)
  obtain ⟨n, memo', hb, heq, hg, hext, hpe, hdone⟩ :=
    loopMain tbl model (zsize expr) expr (Nat.le_refl _) v memo [] hGood hPend hv
  have hrun : backLoop tbl model (2 * zsize expr) memo [expr] = .ok memo' := by
    have h := heq (2 * zsize expr - n)
    rw [backLoop_nil] at h
    have harith : n + (2 * zsize expr - n) = 2 * zsize expr := by omega
    rw [harith] at h
    exact h
  refine ⟨memo', ?_, hg, hext, ?_⟩
  · simp [Z3Converter.back, hrun, hdone]
  · intro k hk
    exact hNoPend k ((hpe (k, model)).mp hk)

/-- The instrumented loop computes the same memo as the plain loop; the
trace is ghost. -/
theorem backLoopT_fst (tbl : SymTable) (model : Option Nat) :
    ∀ (fuel : Nat) (memo : Memo) (stack : List ZTerm),
      (backLoopT tbl model fuel memo stack).1 = backLoop tbl model fuel memo stack := by
  intro fuel
  induction fuel with
  | zero => intro memo stack; rfl
  | succ fuel ih =>
      intro memo stack
      cases stack with
      | nil => rfl
      | cons current rest =>
          cases hm : memo (current, model) with
          | none => simp [backLoopT, backLoop, hm, ih]
          | some val =>
              cases val with
              | none =>
                  simp only [backLoopT, backLoop, hm]
                  cases hs : backSingleTerm tbl current
                      (current.children.map fun c => ((memo (c, model)).getD none).getD .ptrue)
                      model with
                  | error err => rfl
                  | ok res => simp [ih]
              | some w => simp [backLoopT, backLoop, hm, ih]

/-- A resolved memo entry survives any run of the loop with its value
unchanged: re-visits are served from the cache, so every consumer of the key
observes the same reconstructed node. -/
theorem backLoopT_mono (tbl : SymTable) (model : Option Nat) :
    ∀ (fuel : Nat) (memo : Memo) (stack : List ZTerm) (k : BackKey) (v : PTerm),
      memo k = some (some v) →
      ∀ memo', (backLoopT tbl model fuel memo stack).1 = .ok memo' →
        memo' k = some (some v) := by
  intro fuel
  induction fuel with
  | zero =>
      intro memo stack k v hk memo' hrun
      cases hrun
      exact hk
  | succ fuel ih =>
      intro memo stack k v hk memo' hrun
      cases stack with
      | nil =>
          cases hrun
          exact hk
      | cons current rest =>
          cases hm : memo (current, model) with
          | none =>
              rw [backLoopT, hm] at hrun
              have hne : ¬ k = ((current, model) : BackKey) := by
                intro he
                rw [he, hm] at hk
                cases hk
              exact ih _ _ k v (by rw [Memo.upd_other _ _ _ _ hne]; exact hk) memo' hrun
          | some val =>
              cases val with
              | none =>
                  rw [backLoopT, hm] at hrun
                  simp only at hrun
                  cases hs : backSingleTerm tbl current
                      (current.children.map fun c => ((memo (c, model)).getD none).getD .ptrue)
                      model with
                  | error err => rw [hs] at hrun; cases hrun
                  | ok res =>
                      rw [hs] at hrun
                      simp only at hrun
                      have hne : ¬ k = ((current, model) : BackKey) := by
                        intro he
                        rw [he, hm] at hk
                        cases hk
                      exact ih _ _ k v (by rw [Memo.upd_other _ _ _ _ hne]; exact hk) memo' hrun
              | some w =>
                  rw [backLoopT, hm] at hrun
                  exact ih _ _ k v hk memo' hrun

/-- A key that is already resolved is never computed again: it does not
appear on the ghost trace of any subsequent run. -/
theorem backLoopT_done_notin (tbl : SymTable) (model : Option Nat) :
    ∀ (fuel : Nat) (memo : Memo) (stack : List ZTerm) (k : BackKey) (v : PTerm),
      memo k = some (some v) → ¬ k ∈ (backLoopT tbl model fuel memo stack).2 := by
  intro fuel
  induction fuel with
  | zero =>
      intro memo stack k v hk h
      cases h
  | succ fuel ih =>
      intro memo stack k v hk h
      cases stack with
      | nil => cases h
      | cons current rest =>
          cases hm : memo (current, model) with
          | none =>
              rw [backLoopT, hm] at h
              have hne : ¬ k = ((current, model) : BackKey) := by
                intro he
                rw [he, hm] at hk
                cases hk
              exact ih _ _ k v (by rw [Memo.upd_other _ _ _ _ hne]; exact hk) h
          | some val =>
              cases val with
              | none =>
                  rw [backLoopT, hm] at h
                  simp only at h
                  have hne : ¬ k = ((current, model) : BackKey) := by
                    intro he
                    rw [he, hm] at hk
                    cases hk
                  cases hs : backSingleTerm tbl current
                      (current.children.map fun c => ((memo (c, model)).getD none).getD .ptrue)
                      model with
                  | error err =>
                      rw [hs] at h
                      simp at h
                      exact hne h
                  | ok res =>
                      rw [hs] at h
                      simp only [List.mem_cons] at h
                      rcases h with h | h
                      · exact hne h
                      · exact ih _ _ k v (by rw [Memo.upd_other _ _ _ _ hne]; exact hk) h
              | some w =>
                  rw [backLoopT, hm] at h
                  exact ih _ _ k v hk h

/-- The ghost trace never repeats a key: within one converter (one memo
table), each (term, model) key is computed by `_back_single_term` at most
once. -/
theorem backLoopT_nodup (tbl : SymTable) (model : Option Nat) :
    ∀ (fuel : Nat) (memo : Memo) (stack : List ZTerm),
      ((backLoopT tbl model fuel memo stack).2).Nodup := by
  intro fuel
  induction fuel with
  | zero => intro memo stack; simp [backLoopT]
  | succ fuel ih =>
      intro memo stack
      cases stack with
      | nil => simp [backLoopT]
      | cons current rest =>
          cases hm : memo (current, model) with
          | none =>
              rw [backLoopT, hm]
              exact ih _ _
          | some val =>
              cases val with
              | none =>
                  rw [backLoopT, hm]
                  simp only
                  cases hs : backSingleTerm tbl current
                      (current.children.map fun c => ((memo (c, model)).getD none).getD .ptrue)
                      model with
                  | error err => simp
                  | ok res =>
                      refine (List.nodup_cons).mpr ⟨?_, ih _ _⟩
                      exact backLoopT_done_notin tbl model fuel _ rest (current, model) res
                        (Memo.upd_self _ _ _)
              | some w =>
                  rw [backLoopT, hm]
                  exact ih _ _

/-- One entry of the native assertion stack: `z3.add(term)` or
`z3.assert_and_track(term, indicator)`. -/
inductive ZEntry where
  | plain : ZTerm → ZEntry
  | tracked : ZTerm → ZTerm → ZEntry        -- indicator, assertion
deriving DecidableEq, Repr

/-- The three possible engine answers (`str(res)` of `z3.check`). -/
inductive CheckResult where
  | sat | unsat | unknown
deriving DecidableEq, Repr

/-- The observable state of a `Z3Solver` session: the engine's scoped
assertion stack (`self.z3`; head of `scopes` is the innermost scope, the base
scope is last), the deferred-pop flag (`self.pending_pop`, maintained by the
`clear_pending_pop` decorators), the recorded named-assertion triples
(`self.named_assertions`, kept by the `IncrementalTrackingSolver` base), the
fresh-symbol counter behind `mgr.FreshSymbol(template="_assertion_%d")`, the
base class's last-result/last-command tracking, the converter's
back-conversion memo, and the `unsat_cores_mode` option.
`Modelled from the spec:` the base-class bookkeeping (`pending_pop`
discharge, triple recording, `last_result`/`last_command`) lives outside
this file's source; the spec describes it in §4.3 and §5. -/
structure SolverState where
  scopes : List (List ZEntry)
  pendingPop : Bool
  namedAssertions : List (PTerm × Option String × PTerm)
  freshCnt : Nat
  lastResult : Option Bool
  lastCommand : String
  memo : Memo
  coresMode : Option String

/-- Errors of the session layer. -/
inductive SolverErr where
  | unknownResult : SolverErr                    -- SolverReturnedUnknownResultError
  | notConfiguredForUnsatCores : SolverErr       -- SolverNotConfiguredForUnsatCoresError
  | statusError : String → SolverErr             -- SolverStatusError
  | backError : BErr → SolverErr                 -- escaped back-conversion failure
deriving DecidableEq, Repr

/-- `z3.add` on the current scope. -/
def zAssert (en : ZEntry) (s : SolverState) : SolverState :=
  match s.scopes with
  | top :: rest => { s with scopes := (en :: top) :: rest }
  | [] => { s with scopes := [[en]] }

/-- `z3.push()`: open one scope. -/
def zPush (s : SolverState) : SolverState :=
  { s with scopes := [] :: s.scopes }

/-- `z3.pop()`: close the innermost scope.  Popping with no open scope is a
fatal engine-level usage error; it is modelled as a no-op, and no claim
depends on that corner. -/
def zPop (s : SolverState) : SolverState :=
  match s.scopes with
  | _ :: rest@(_ :: _) => { s with scopes := rest }
  | _ => s

/-- `z3.push()` iterated, as in `_push`'s loop. -/
def zPushN : Nat → SolverState → SolverState
  | 0, s => s
  | n + 1, s => zPushN n (zPush s)

/-- `z3.pop()` iterated, as in `_pop`'s loop. -/
def zPopN : Nat → SolverState → SolverState
  | 0, s => s
  | n + 1, s => zPopN n (zPop s)

/-- The `clear_pending_pop` decorator that guards every mutating entry point
(`_reset_assertions`, `_add_assertion`, `_solve`, `_push`, `_pop`).
`Modelled from the spec:` the decorator body lives in `pysmt.decorators`;
per §4.3/§5 it discharges any pending deferred pop (one engine `pop`) before
the decorated call runs. -/
def clearPendingPop (s : SolverState) : SolverState :=
  if s.pendingPop then zPop { s with pendingPop := false } else s

/-- `Z3Solver._add_assertion` together with its base-class wrapper: discharge
any pending pop; lower the formula; if a name was supplied *and* unsat-core
tracking is enabled, allocate the fresh indicator symbol
`_assertion_<counter>`, lower it, track the assertion under it and record the
(indicator, name, formula) triple; otherwise assert the lowered formula
directly.  The wrapper records the command for the status tracking. -/
def addAssertion (s : SolverState) (formula : PTerm) (named : Option String) : SolverState :=
  let s := clearPendingPop s
  let term := convert formula
  let s :=
    if ¬ named = none ∧ ¬ s.coresMode = none then
      let key : PTerm := .psymbol ("_assertion_" ++ toString s.freshCnt) .bool
      let tkey := convert key
      { zAssert (.tracked tkey term) s with
          namedAssertions := s.namedAssertions ++ [(key, named, formula)],
          freshCnt := s.freshCnt + 1 }
    else
      zAssert (.plain term) s
  { s with lastCommand := "assert" }

/-- `push(levels)`: discharge any pending pop, then open `levels` scopes. -/
def pushOp (s : SolverState) (levels : Nat) : SolverState :=
  { zPushN levels (clearPendingPop s) with lastCommand := "push" }

/-- `pop(levels)`: discharge any pending pop, then close `levels` scopes. -/
def popOp (s : SolverState) (levels : Nat) : SolverState :=
  { zPopN levels (clearPendingPop s) with lastCommand := "pop" }

/-- `_reset_assertions`: discharge any pending pop, clear the engine state
(`z3.reset()`) and re-apply the options (state-free here). -/
def resetAssertions (s : SolverState) : SolverState :=
  { clearPendingPop s with scopes := [[]], lastCommand := "reset" }

/-- `FNode.is_literal()`: a Boolean symbol or the negation of one.
`Modelled from the spec:` §4.3 "literal atoms (boolean symbols/negations,
usable directly as solver assumptions)". -/
def isLiteral : PTerm → Bool
  | .psymbol _ τ => decide (τ = .bool)
  | .punop .not (.psymbol _ τ) => decide (τ = .bool)
  | _ => false

/-- The literal assumptions handed to the engine by `_solve`: the
`is_literal` members, lowered in order (`bool_ass`). -/
def solveBoolAss : Option (List PTerm) → List ZTerm
  | none => []
  | some ass => (ass.filter (fun x => isLiteral x)).map convert

/-- What `_solve` does to the session before querying the engine: discharge
any pending pop; when assumptions are given, split off the composite (non
`is_literal`) ones and, if there are any, push one scope through the public
`push`, assert their `mgr.And` conjunction through the public
`add_assertion` (unnamed), and set the deferred-pop flag. -/
def solvePre (s : SolverState) (assumptions : Option (List PTerm)) : SolverState :=
  let s := clearPendingPop s
  match assumptions with
  | none => s
  | some ass =>
      let other_ass := ass.filter (fun x => ¬ isLiteral x)
      if 0 < other_ass.length then
        { addAssertion (pushOp s 1) (mgrAnd other_ass) none with pendingPop := true }
      else s

/-- The tail of `_solve`: `assert sres in ['unknown','sat','unsat']` (vacuous
over `CheckResult`); an `unknown` answer raises
`SolverReturnedUnknownResultError`; otherwise the call returns whether the
answer was `sat` — an unknown is never coerced to either. -/
def solveResult : CheckResult → Except SolverErr Bool
  | .unknown => .error .unknownResult
  | .sat => .ok true
  | .unsat => .ok false

/-- The base-class solve wrapper's status tracking: record the Boolean
result when the call succeeds, and mark the last command as `solve` in
either case. -/
def solveTrack (r : CheckResult) (s : SolverState) : SolverState :=
  match r with
  | .unknown => { s with lastCommand := "solve" }
  | .sat => { s with lastResult := some true, lastCommand := "solve" }
  | .unsat => { s with lastResult := some false, lastCommand := "solve" }

/-- `Z3Solver._solve` with its base-class wrapper, assembled from the stages
above: prepare the session, query the opaque engine `check` (standing for
`self.z3.check(*bool_ass)`) on the resulting assertion stack with the
lowered literal assumptions, and map the engine's answer to the call's
outcome and status tracking. -/
def solve (check : List (List ZEntry) → List ZTerm → CheckResult)
    (s : SolverState) (assumptions : Option (List PTerm)) :
    Except SolverErr Bool × SolverState :=
  let pre := solvePre s assumptions
  let res := check pre.scopes (solveBoolAss assumptions)
  (solveResult res, solveTrack res pre)

/-- Back-convert a list of native terms through one converter, threading its
memo table (the iteration `set(self.converter.back(t) for t in assumptions)`
up to the set construction). -/
def backList (tbl : SymTable) (model : Option Nat) :
    Memo → List ZTerm → Except BErr (List PTerm × Memo)
  | memo, [] => .ok ([], memo)
  | memo, t :: ts =>
      match Z3Converter.back tbl memo t model with
      | .error e => .error e
      | .ok (v, memo') =>
          match backList tbl model memo' ts with
          | .error e => .error e
          | .ok (vs, memo'') => .ok (v :: vs, memo'')

/-- Deduplication, modelling the `set(...)` constructor (Python's set
iteration order is unspecified; this keeps first occurrences). -/
def setify : List PTerm → List PTerm
  | [] => []
  | x :: xs => x :: (setify xs).filter (fun y => ¬ y = x)

/-- The dictionary `_named_assertions_map` built from the recorded triples
(`dict` semantics: a later binding for the same key wins). -/
def lookupTriple : List (PTerm × Option String × PTerm) → PTerm → Option (Option String × PTerm)
  | [], _ => none
  | (k, nf) :: rest, x =>
      match lookupTriple rest x with
      | some r => some r
      | none => if k = x then some nf else none

/-- Dictionary assignment `res[name] = formula`. -/
def assocSet : List (String × PTerm) → String → PTerm → List (String × PTerm)
  | [], n, f => [(n, f)]
  | (m, g) :: rest, n, f =>
      if m = n then (m, f) :: rest else (m, g) :: assocSet rest n f

/-- The result-building loop of `get_named_unsat_core`: for every reported
key found among the recorded triples, bind its formula under the
user-supplied name, or under the synthesized name `_a_<counter>` when none
was supplied (the counter advancing only over such nameless entries). -/
def buildCore (nmap : List (PTerm × Option String × PTerm)) :
    List PTerm → Nat → List (String × PTerm) → List (String × PTerm)
  | [], _, res => res
  | key :: keys, cnt, res =>
      match lookupTriple nmap key with
      | none => buildCore nmap keys cnt res
      | some (some n, formula) => buildCore nmap keys cnt (assocSet res n formula)
      | some (none, formula) =>
          buildCore nmap keys (cnt + 1) (assocSet res ("_a_" ++ toString cnt) formula)

/-- `Z3Solver.get_named_unsat_core`: refuse when unsat-core tracking is not
configured; raise a status error when the last solve did not conclude unsat,
or when any command has modified the solver since that solve; otherwise read
the engine's reported indicator subset (the opaque oracle
`unsatCoreOracle` standing for `self.z3.unsat_core()`), lift each indicator
back, deduplicate, and fold the recorded triples into the name → formula
dictionary. -/
def getNamedUnsatCore (tbl : SymTable) (unsatCoreOracle : List ZTerm)
    (s : SolverState) : Except SolverErr (List (String × PTerm)) :=
  if s.coresMode = none then .error .notConfiguredForUnsatCores
  else if ¬ s.lastResult = some false then
    .error (.statusError "The last call to solve() was not unsatisfiable")
  else if ¬ s.lastCommand = "solve" then
    .error (.statusError "The solver status has been modified by a command after the last call to solve()")
  else
    match backList tbl none s.memo unsatCoreOracle with
    | .error e => .error (.backError e)
    | .ok (terms, _) => .ok (buildCore s.namedAssertions (setify terms) 0 [])

/-- `FNode.is_constant()`: the literal constants of the grammar.
`Modelled from the spec:` pySMT's node classification is an external
collaborator; a constant node is a Boolean, integer, real or bitvector
literal. -/
def isConstant : PTerm → Bool
  | .ptrue => true
  | .pfalse => true
  | .pintc _ => true
  | .prealc _ => true
  | .pbvc _ _ => true
  | _ => false

/-- `Z3Solver.get_value`: lower the term, evaluate it against the current
model with model completion enabled (the opaque oracle `evalOracle` stands
for `self.z3.model().eval(·, model_completion=·)`), lift the result back
relative to that model; a non-constant lifted result is returned simplified
(`simplifyFn` stands for the external `FNode.simplify`), a constant one
as-is. -/
def getValue (tbl : SymTable) (evalOracle : ZTerm → Bool → ZTerm)
    (simplifyFn : PTerm → PTerm) (modelId : Nat) (s : SolverState)
    (item : PTerm) : Except BErr PTerm :=
  let titem := convert item
  let zres := evalOracle titem true
  match Z3Converter.back tbl s.memo zres (some modelId) with
  | .error e => .error e
  | .ok (res, _) => if isConstant res then .ok res else .ok (simplifyFn res)

/-- Errors of the quantifier-elimination session. -/
inductive QEErr where
  | valueError : String → QEErr                     -- PysmtValueError
  | convertExprError : Option ZTerm → QEErr         -- ConvertExpressionError (expression attr)
  | otherBackError : BErr → QEErr                   -- any other exception, propagated unchanged
deriving DecidableEq, Repr

/-- `Z3QuantifierEliminator.eliminate_quantifiers`: reject any input whose
logic is neither within LRA nor within LIA (`leLRA`/`leLIA` are the results
of the external logic classifier `get_logic(formula) ≤ LRA/LIA`); lower the
input; run the `simplify` tactic (whose result the source discards) and the
`qe` tactic (both opaque oracles); lift the eliminated result back.  A
`ConvertExpressionError` during lifting is re-raised unchanged under LRA,
and replaced under LIA by the incompleteness `ConvertExpressionError`
carrying the untranslated native result as its `expression` attribute; any
other exception propagates unchanged. -/
def eliminateQuantifiers (tbl : SymTable) (leLRA leLIA : Bool)
    (simplifyTactic qeTactic : ZTerm → ZTerm) (memo : Memo)
    (formula : PTerm) : Except QEErr PTerm :=
  if ¬ leLRA = true ∧ ¬ leLIA = true then
    .error (.valueError "Z3 quantifier elimination only supports LRA or LIA without combination.")
  else
    let f := convert formula
    let _s := simplifyTactic f
    let res := qeTactic f
    match Z3Converter.back tbl memo res none with
    | .ok (pysmt_res, _) => .ok pysmt_res
    | .error (.convertExpressionError e) =>
        if leLRA = true then .error (.convertExprError e)
        else .error (.convertExprError (some res))
    | .error err => .error (.otherBackError err)

/-- The mutating session commands (the entry points that change the
assertion stack): `push`, `pop`, `add_assertion`, `reset_assertions`. -/
inductive MutOp where
  | push : Nat → MutOp
  | pop : Nat → MutOp
  | assert : PTerm → Option String → MutOp
  | reset : MutOp
deriving DecidableEq, Repr

/-- Apply a mutating command to a session state. -/
def applyMut (s : SolverState) : MutOp → SolverState
  | .push n => pushOp s n
  | .pop n => popOp s n
  | .assert f name => addAssertion s f name
  | .reset => resetAssertions s

/-- The pure effect of `z3.add` on the scope stack. -/
def assertScopes (en : ZEntry) : List (List ZEntry) → List (List ZEntry)
  | top :: rest => (en :: top) :: rest
  | [] => [[en]]

/-- The pure effect of `z3.pop()` on the scope stack. -/
def popScopes : List (List ZEntry) → List (List ZEntry)
  | _ :: b :: r => b :: r
  | l => l

@[simp] theorem zPush_scopes (s : SolverState) : (zPush s).scopes = [] :: s.scopes := rfl

@[simp] theorem zPush_pendingPop (s : SolverState) : (zPush s).pendingPop = s.pendingPop := rfl

@[simp] theorem zPush_coresMode (s : SolverState) : (zPush s).coresMode = s.coresMode := rfl

@[simp] theorem zPush_freshCnt (s : SolverState) : (zPush s).freshCnt = s.freshCnt := rfl

@[simp] theorem zPush_namedAssertions (s : SolverState) :
    (zPush s).namedAssertions = s.namedAssertions := rfl

@[simp] theorem zPop_scopes (s : SolverState) : (zPop s).scopes = popScopes s.scopes := by
  obtain ⟨sc, pp, na, fc, lr, lc, mm, cm⟩ := s
  cases sc with
  | nil => rfl
  | cons a rest =>
      cases rest with
      | nil => rfl
      | cons b r => rfl

@[simp] theorem zPop_pendingPop (s : SolverState) : (zPop s).pendingPop = s.pendingPop := by
  obtain ⟨sc, pp, na, fc, lr, lc, mm, cm⟩ := s
  cases sc with
  | nil => rfl
  | cons a rest =>
      cases rest with
      | nil => rfl
      | cons b r => rfl

@[simp] theorem zPop_coresMode (s : SolverState) : (zPop s).coresMode = s.coresMode := by
  obtain ⟨sc, pp, na, fc, lr, lc, mm, cm⟩ := s
  cases sc with
  | nil => rfl
  | cons a rest =>
      cases rest with
      | nil => rfl
      | cons b r => rfl

@[simp] theorem zPop_freshCnt (s : SolverState) : (zPop s).freshCnt = s.freshCnt := by
  obtain ⟨sc, pp, na, fc, lr, lc, mm, cm⟩ := s
  cases sc with
  | nil => rfl
  | cons a rest =>
      cases rest with
      | nil => rfl
      | cons b r => rfl

@[simp] theorem zPop_namedAssertions (s : SolverState) :
    (zPop s).namedAssertions = s.namedAssertions := by
  obtain ⟨sc, pp, na, fc, lr, lc, mm, cm⟩ := s
  cases sc with
  | nil => rfl
  | cons a rest =>
      cases rest with
      | nil => rfl
      | cons b r => rfl

@[simp] theorem zPop_lastResult (s : SolverState) : (zPop s).lastResult = s.lastResult := by
  obtain ⟨sc, pp, na, fc, lr, lc, mm, cm⟩ := s
  cases sc with
  | nil => rfl
  | cons a rest =>
      cases rest with
      | nil => rfl
      | cons b r => rfl

@[simp] theorem zPop_memo (s : SolverState) : (zPop s).memo = s.memo := by
  obtain ⟨sc, pp, na, fc, lr, lc, mm, cm⟩ := s
  cases sc with
  | nil => rfl
  | cons a rest =>
      cases rest with
      | nil => rfl
      | cons b r => rfl

@[simp] theorem zAssert_scopes (en : ZEntry) (s : SolverState) :
    (zAssert en s).scopes = assertScopes en s.scopes := by
  obtain ⟨sc, pp, na, fc, lr, lc, mm, cm⟩ := s
  cases sc with
  | nil => rfl
  | cons a rest => rfl

@[simp] theorem zAssert_pendingPop (en : ZEntry) (s : SolverState) :
    (zAssert en s).pendingPop = s.pendingPop := by
  obtain ⟨sc, pp, na, fc, lr, lc, mm, cm⟩ := s
  cases sc with
  | nil => rfl
  | cons a rest => rfl

@[simp] theorem zAssert_coresMode (en : ZEntry) (s : SolverState) :
    (zAssert en s).coresMode = s.coresMode := by
  obtain ⟨sc, pp, na, fc, lr, lc, mm, cm⟩ := s
  cases sc with
  | nil => rfl
  | cons a rest => rfl

@[simp] theorem zAssert_freshCnt (en : ZEntry) (s : SolverState) :
    (zAssert en s).freshCnt = s.freshCnt := by
  obtain ⟨sc, pp, na, fc, lr, lc, mm, cm⟩ := s
  cases sc with
  | nil => rfl
  | cons a rest => rfl

@[simp] theorem zAssert_namedAssertions (en : ZEntry) (s : SolverState) :
    (zAssert en s).namedAssertions = s.namedAssertions := by
  obtain ⟨sc, pp, na, fc, lr, lc, mm, cm⟩ := s
  cases sc with
  | nil => rfl
  | cons a rest => rfl

@[simp] theorem clearPendingPop_pendingPop (s : SolverState) :
    (clearPendingPop s).pendingPop = false := by
  unfold clearPendingPop
  split
  · simp
  · rename_i h
    simpa using h

@[simp] theorem clearPendingPop_coresMode (s : SolverState) :
    (clearPendingPop s).coresMode = s.coresMode := by
  unfold clearPendingPop
  split <;> simp

@[simp] theorem clearPendingPop_freshCnt (s : SolverState) :
    (clearPendingPop s).freshCnt = s.freshCnt := by
  unfold clearPendingPop
  split <;> simp

@[simp] theorem clearPendingPop_namedAssertions (s : SolverState) :
    (clearPendingPop s).namedAssertions = s.namedAssertions := by
  unfold clearPendingPop
  split <;> simp

@[simp] theorem clearPendingPop_memo (s : SolverState) :
    (clearPendingPop s).memo = s.memo := by
  unfold clearPendingPop
  split <;> simp

/-- Discharging a state with no pending pop is the identity. -/
theorem clearPendingPop_of_false (s : SolverState) (h : s.pendingPop = false) :
    clearPendingPop s = s := by
  unfold clearPendingPop
  rw [h]
  simp

@[simp] theorem clearPendingPop_idem (s : SolverState) :
    clearPendingPop (clearPendingPop s) = clearPendingPop s :=
  clearPendingPop_of_false _ (clearPendingPop_pendingPop s)

/-- The scope stack of a discharged state. -/
theorem clearPendingPop_scopes (s : SolverState) :
    (clearPendingPop s).scopes = if s.pendingPop then popScopes s.scopes else s.scopes := by
  unfold clearPendingPop
  split <;> simp_all

/-- Discharging keeps the base scope. -/
theorem clearPendingPop_scopes_ne_nil (s : SolverState) (h : ¬ s.scopes = []) :
    ¬ (clearPendingPop s).scopes = [] := by
  rw [clearPendingPop_scopes]
  split
  · match hs : s.scopes with
    | [] => exact absurd hs h
    | [a] => simp [popScopes]
    | a :: b :: r => simp [popScopes]
  · exact h

/-- The scope stack of an `add_assertion`, as a function of the discharged
stack and the tracking decision. -/
theorem addAssertion_scopes (s : SolverState) (f : PTerm) (name : Option String) :
    (addAssertion s f name).scopes =
      if ¬ name = none ∧ ¬ s.coresMode = none then
        assertScopes
          (.tracked (convert (.psymbol ("_assertion_" ++ toString s.freshCnt) .bool)) (convert f))
          (clearPendingPop s).scopes
      else assertScopes (.plain (convert f)) (clearPendingPop s).scopes := by
  unfold addAssertion
  by_cases hc : ¬ name = none ∧ ¬ s.coresMode = none
  · have hc2 : ¬ name = none ∧ ¬ (clearPendingPop s).coresMode = none := by
      simpa using hc
    simp [hc, hc2]
  · have hc2 : ¬ (¬ name = none ∧ ¬ (clearPendingPop s).coresMode = none) := by
      simpa using hc
    simp [hc, hc2]

/-- The scope stack after `zPushN` depends only on the starting stack. -/
theorem zPushN_scopes_congr :
    ∀ (n : Nat) (u w : SolverState), u.scopes = w.scopes →
      (zPushN n u).scopes = (zPushN n w).scopes := by
  intro n
  induction n with
  | zero => intro u w h; exact h
  | succ n ih =>
      intro u w h
      exact ih (zPush u) (zPush w) (by simp [h])

/-- The scope stack after `zPopN` depends only on the starting stack. -/
theorem zPopN_scopes_congr :
    ∀ (n : Nat) (u w : SolverState), u.scopes = w.scopes →
      (zPopN n u).scopes = (zPopN n w).scopes := by
  intro n
  induction n with
  | zero => intro u w h; exact h
  | succ n ih =>
      intro u w h
      exact ih (zPop u) (zPop w) (by simp [h])

/-- The scope stack produced by any mutating command is a function of the
discharged scope stack, the cores mode and the fresh-symbol counter of the
state it is applied to. -/
theorem applyMut_scopes_congr (u w : SolverState)
    (h1 : (clearPendingPop u).scopes = (clearPendingPop w).scopes)
    (h3 : u.coresMode = w.coresMode) (h4 : u.freshCnt = w.freshCnt) :
    ∀ op : MutOp, (applyMut u op).scopes = (applyMut w op).scopes := by
  intro op
  cases op with
  | push n =>
      simp only [applyMut, pushOp]
      exact zPushN_scopes_congr n _ _ h1
  | pop n =>
      simp only [applyMut, popOp]
      exact zPopN_scopes_congr n _ _ h1
  | assert f name =>
      simp only [applyMut]
      rw [addAssertion_scopes, addAssertion_scopes, h1, h3, h4]
  | reset =>
      simp [applyMut, resetAssertions]

@[simp] theorem zPushN_pendingPop : ∀ (n : Nat) (s : SolverState),
    (zPushN n s).pendingPop = s.pendingPop := by
  intro n
  induction n with
  | zero => intro s; rfl
  | succ n ih => intro s; simp [zPushN, ih]

@[simp] theorem zPushN_coresMode : ∀ (n : Nat) (s : SolverState),
    (zPushN n s).coresMode = s.coresMode := by
  intro n
  induction n with
  | zero => intro s; rfl
  | succ n ih => intro s; simp [zPushN, ih]

@[simp] theorem zPushN_freshCnt : ∀ (n : Nat) (s : SolverState),
    (zPushN n s).freshCnt = s.freshCnt := by
  intro n
  induction n with
  | zero => intro s; rfl
  | succ n ih => intro s; simp [zPushN, ih]


@[simp] theorem solveTrack_scopes (r : CheckResult) (s : SolverState) :
    (solveTrack r s).scopes = s.scopes := by
  cases r <;> rfl

@[simp] theorem solveTrack_pendingPop (r : CheckResult) (s : SolverState) :
    (solveTrack r s).pendingPop = s.pendingPop := by
  cases r <;> rfl

@[simp] theorem solveTrack_coresMode (r : CheckResult) (s : SolverState) :
    (solveTrack r s).coresMode = s.coresMode := by
  cases r <;> rfl

@[simp] theorem solveTrack_freshCnt (r : CheckResult) (s : SolverState) :
    (solveTrack r s).freshCnt = s.freshCnt := by
  cases r <;> rfl

@[simp] theorem addAssertion_coresMode (s : SolverState) (f : PTerm) (name : Option String) :
    (addAssertion s f name).coresMode = s.coresMode := by
  simp only [addAssertion]
  split <;> simp

/-- An unnamed assertion does not advance the fresh-symbol counter. -/
theorem addAssertion_none_freshCnt (s : SolverState) (f : PTerm) :
    (addAssertion s f none).freshCnt = s.freshCnt := by
  simp only [addAssertion]
  split
  · rename_i hcon
    exact absurd trivial hcon.1
  · simp

@[simp] theorem pushOp_pendingPop (s : SolverState) (n : Nat) :
    (pushOp s n).pendingPop = false := by
  simp [pushOp]

@[simp] theorem pushOp_coresMode (s : SolverState) (n : Nat) :
    (pushOp s n).coresMode = s.coresMode := by
  simp [pushOp]

@[simp] theorem pushOp_freshCnt (s : SolverState) (n : Nat) :
    (pushOp s n).freshCnt = s.freshCnt := by
  simp [pushOp]

/-- `solvePre` on at least one composite assumption: one fresh scope holding
exactly the lowered conjunction of the composite assumptions, deferred pop
marked, cores mode and fresh counter untouched. -/
theorem solvePre_composite (s : SolverState) (ass : List PTerm)
    (hcomp : 0 < (ass.filter (fun x => ¬ isLiteral x)).length) :
    (solvePre s (some ass)).scopes
        = [ZEntry.plain (convert (mgrAnd (ass.filter (fun x => ¬ isLiteral x))))]
            :: (clearPendingPop s).scopes ∧
    (solvePre s (some ass)).pendingPop = true ∧
    (solvePre s (some ass)).coresMode = s.coresMode ∧
    (solvePre s (some ass)).freshCnt = s.freshCnt := by
  unfold solvePre
  simp only [clearPendingPop_idem, if_pos hcomp]
  refine ⟨?_, by simp, ?_, ?_⟩
  · show (addAssertion (pushOp (clearPendingPop s) 1)
        (mgrAnd (ass.filter (fun x => ¬ isLiteral x))) none).scopes = _
    rw [addAssertion_scopes]
    have hcond : ¬ (¬ (none : Option String) = none ∧
        ¬ (pushOp (clearPendingPop s) 1).coresMode = none) := by simp
    rw [if_neg hcond]
    have h1 : (pushOp (clearPendingPop s) 1).pendingPop = false := by simp
    rw [clearPendingPop_of_false _ h1]
    have h2 : (pushOp (clearPendingPop s) 1).scopes = [] :: (clearPendingPop s).scopes := by
      simp [pushOp, zPushN]
    rw [h2]
    rfl
  · show (addAssertion (pushOp (clearPendingPop s) 1)
        (mgrAnd (ass.filter (fun x => ¬ isLiteral x))) none).coresMode = s.coresMode
    simp
  · show (addAssertion (pushOp (clearPendingPop s) 1)
        (mgrAnd (ass.filter (fun x => ¬ isLiteral x))) none).freshCnt = s.freshCnt
    rw [addAssertion_none_freshCnt]
    simp

/-- Claim C2 (counterexample state): a session with unsat-core tracking
enabled (`unsat_cores_mode = "all"`), one base scope, and no recorded
assertions. -/
def c2State : SolverState :=
  ⟨[[]], false, [], 0, none, "", Memo.empty, some "all"⟩

/-- Claim C2, counterexample: on a session with unsat-core tracking enabled,
`add_assertion` of a formula *without* a user-supplied name allocates no
indicator and records no (indicator, name, formula) triple — the formula is
asserted directly (a plain entry in the current scope), refuting the claim
that tracking happens whenever the mode is enabled. -/
theorem claim_c2_counterexample :
    ¬ c2State.coresMode = none ∧
    (addAssertion c2State (.psymbol "p" .bool) none).namedAssertions = [] ∧
    (addAssertion c2State (.psymbol "p" .bool) none).freshCnt = 0 ∧
    (addAssertion c2State (.psymbol "p" .bool) none).scopes
      = [[ZEntry.plain (ZTerm.zconst "p" ZSort.zbool)]] := by
  refine ⟨by simp [c2State], rfl, rfl, rfl⟩

/-- Claim C2 (amended): `add_assertion(f, name?)` allocates a fresh
indicator symbol `_assertion_<counter>`, tracks the lowered formula under it
and records the (indicator, name, formula) triple exactly when unsat-core
tracking is enabled *and* a user-supplied name is given; in every other case
— including tracking enabled with no name — the formula is asserted
directly, with no indicator and no recorded triple. -/
theorem claim_c2 (s : SolverState) (f : PTerm) (name : Option String) :
    (¬ name = none ∧ ¬ s.coresMode = none →
       (addAssertion s f name).namedAssertions
         = s.namedAssertions ++ [(.psymbol ("_assertion_" ++ toString s.freshCnt) .bool, name, f)] ∧
       (addAssertion s f name).freshCnt = s.freshCnt + 1 ∧
       (addAssertion s f name).scopes
         = assertScopes
             (.tracked (convert (.psymbol ("_assertion_" ++ toString s.freshCnt) .bool)) (convert f))
             (clearPendingPop s).scopes) ∧
    (name = none ∨ s.coresMode = none →
       (addAssertion s f name).namedAssertions = s.namedAssertions ∧
       (addAssertion s f name).freshCnt = s.freshCnt ∧
       (addAssertion s f name).scopes
         = assertScopes (.plain (convert f)) (clearPendingPop s).scopes) := by
  constructor
  · intro h
    have hc : ¬ name = none ∧ ¬ (clearPendingPop s).coresMode = none := by simpa using h
    simp only [addAssertion]
    rw [if_pos hc]
    simp
  · intro h
    have hc : ¬ (¬ name = none ∧ ¬ (clearPendingPop s).coresMode = none) := by
      simp only [clearPendingPop_coresMode]
      rcases h with h | h
      · intro hcon
        exact hcon.1 h
      · intro hcon
        exact hcon.2 h
    simp only [addAssertion]
    rw [if_neg hc]
    simp

/-- Claim C3: a Boolean-typed if-then-else is not lowered to the native
ternary: it lowers to `(¬i ∨ t) ∧ (i ∨ e)`, built only from negation,
disjunction and conjunction over the lowered sub-terms; any other
if-then-else lowers to the native ternary `Z3_mk_ite`. -/
theorem claim_c3 (i t e : PTerm) :
    (ptype t = PType.bool →
       convert (.pite i t e)
         = .znary .and (.cons (.znary .or (.cons (.zun .not (convert i)) (.cons (convert t) .nil)))
                       (.cons (.znary .or (.cons (convert i) (.cons (convert e) .nil))) .nil))) ∧
    (¬ ptype t = PType.bool →
       convert (.pite i t e) = .zite (convert i) (convert t) (convert e)) := by
  constructor
  · intro h
    simp [convert, ptype, h]
  · intro h
    simp [convert, ptype, h]

/-- Claim C4: for every call to solve, with or without assumptions, an
engine answer of `unknown` raises `SolverReturnedUnknownResultError` — it
is never coerced to a sat or unsat outcome — and otherwise the call returns
true exactly on `sat` and false exactly on `unsat`. -/
theorem claim_c4 (check : List (List ZEntry) → List ZTerm → CheckResult)
    (s : SolverState) (assumptions : Option (List PTerm)) :
    (check (solvePre s assumptions).scopes (solveBoolAss assumptions) = .unknown →
       (solve check s assumptions).1 = .error SolverErr.unknownResult) ∧
    (check (solvePre s assumptions).scopes (solveBoolAss assumptions) = .sat →
       (solve check s assumptions).1 = .ok true) ∧
    (check (solvePre s assumptions).scopes (solveBoolAss assumptions) = .unsat →
       (solve check s assumptions).1 = .ok false) := by
  refine ⟨?_, ?_, ?_⟩ <;> intro h <;> simp [solve, h, solveResult]

/-- Claim C5: on a solve call whose assumption set contains at least one
composite (non-literal) formula, the session pushes exactly one scope,
asserts the conjunction of the composite assumptions inside it, and marks
the deferred pop; consequently, issuing any mutating command after the
solve leaves the assertion stack exactly as issuing it before the solve
would have — the temporary scope never leaks. -/
theorem claim_c5 (check : List (List ZEntry) → List ZTerm → CheckResult)
    (s : SolverState) (ass : List PTerm)
    (hcomp : 0 < (ass.filter (fun x => ¬ isLiteral x)).length)
    (hbase : ¬ s.scopes = []) :
    (solve check s (some ass)).2.scopes
        = [ZEntry.plain (convert (mgrAnd (ass.filter (fun x => ¬ isLiteral x))))]
            :: (clearPendingPop s).scopes ∧
    (solve check s (some ass)).2.pendingPop = true ∧
    (∀ op : MutOp,
       (applyMut (solve check s (some ass)).2 op).scopes = (applyMut s op).scopes) := by
  obtain ⟨h1, h2, h3, h4⟩ := solvePre_composite s ass hcomp
  have hsc : (solve check s (some ass)).2.scopes = (solvePre s (some ass)).scopes := by
    simp [solve]
  have hpp : (solve check s (some ass)).2.pendingPop = (solvePre s (some ass)).pendingPop := by
    simp [solve]
  have hcm : (solve check s (some ass)).2.coresMode = s.coresMode := by
    simp [solve, h3]
  have hfc : (solve check s (some ass)).2.freshCnt = s.freshCnt := by
    simp [solve, h4]
  refine ⟨by rw [hsc, h1], by rw [hpp, h2], ?_⟩
  intro op
  apply applyMut_scopes_congr
  · rw [clearPendingPop_scopes, hpp, h2, if_pos rfl, hsc, h1]
    cases hl : (clearPendingPop s).scopes with
    | nil => exact absurd hl (clearPendingPop_scopes_ne_nil s hbase)
    | cons a r => simp [popScopes]
  · exact hcm
  · exact hfc

/-- Claim C6: on a session configured for unsat cores,
`get_named_unsat_core` raises a status error whenever the last solve result
was not unsat or any command has modified the solver since that solve;
otherwise it returns the dictionary folded from the engine's reported
indicator subset through the recorded triples — and that fold binds every
reported tracked assertion under its user-supplied name, or under the
synthesized name `_a_<counter>` (the counter advancing only over nameless
entries) when none was supplied, and skips reported keys with no recorded
triple. -/
theorem claim_c6 (tbl : SymTable) (oracle : List ZTerm) (s : SolverState)
    (hmode : ¬ s.coresMode = none) :
    ((¬ s.lastResult = some false →
        getNamedUnsatCore tbl oracle s
          = .error (.statusError "The last call to solve() was not unsatisfiable")) ∧
     (s.lastResult = some false → ¬ s.lastCommand = "solve" →
        getNamedUnsatCore tbl oracle s
          = .error (.statusError
              "The solver status has been modified by a command after the last call to solve()")) ∧
     (s.lastResult = some false → s.lastCommand = "solve" →
        ∀ terms memo', backList tbl none s.memo oracle = .ok (terms, memo') →
          getNamedUnsatCore tbl oracle s
            = .ok (buildCore s.namedAssertions (setify terms) 0 []))) ∧
    (∀ (nmap : List (PTerm × Option String × PTerm)) (key g : PTerm)
       (keys : List PTerm) (cnt : Nat) (res : List (String × PTerm)),
       (lookupTriple nmap key = some (none, g) →
          buildCore nmap (key :: keys) cnt res
            = buildCore nmap keys (cnt + 1) (assocSet res ("_a_" ++ toString cnt) g)) ∧
       (∀ nm, lookupTriple nmap key = some (some nm, g) →
          buildCore nmap (key :: keys) cnt res
            = buildCore nmap keys cnt (assocSet res nm g)) ∧
       (lookupTriple nmap key = none →
          buildCore nmap (key :: keys) cnt res = buildCore nmap keys cnt res)) := by
  constructor
  · refine ⟨?_, ?_, ?_⟩
    · intro hres
      simp [getNamedUnsatCore, hmode, hres]
    · intro hres hcmd
      simp [getNamedUnsatCore, hmode, hres, hcmd]
    · intro hres hcmd terms memo' hback
      simp [getNamedUnsatCore, hmode, hres, hcmd, hback]
  · intro nmap key g keys cnt res
    refine ⟨?_, ?_, ?_⟩
    · intro h
      simp [buildCore, h]
    · intro nm h
      simp [buildCore, h]
    · intro h
      simp [buildCore, h]

/-- Claim C7: a native constant term that is not a numeric, bitvector,
Boolean or algebraic literal and not an as-array term (a symbolic leaf,
`zconst`) is back-converted, outside of any model context, by looking up an
existing symbol of its name in the symbol table; when no such symbol exists,
a new symbol of that name with the sort-inferred type is silently created
and returned — no lookup failure is raised. -/
theorem claim_c7 (tbl : SymTable) (n : String) (srt : ZSort) :
    (∀ τ, tbl.vars n = some τ →
       backSingleTerm tbl (.zconst n srt) [] none = .ok (.psymbol n τ) ∧
       ∃ memo', Z3Converter.back tbl Memo.empty (.zconst n srt) none
         = .ok (.psymbol n τ, memo')) ∧
    (tbl.vars n = none →
       backSingleTerm tbl (.zconst n srt) [] none = .ok (.psymbol n (zSortToType srt)) ∧
       ∃ memo', Z3Converter.back tbl Memo.empty (.zconst n srt) none
         = .ok (.psymbol n (zSortToType srt), memo')) := by
  have hGood : MGood tbl none Memo.empty := by
    intro k v h
    cases h
  have hNoPend : ∀ k, ¬ (Memo.empty (k, (none : Option Nat)) = some none) := by
    intro k h
    cases h
  constructor
  · intro τ htv
    have hsingle : backSingleTerm tbl (.zconst n srt) [] none = .ok (.psymbol n τ) := by
      simp [backSingleTerm, htv]
    refine ⟨hsingle, ?_⟩
    obtain ⟨memo', hb, _, _, _⟩ :=
      back_eq_backRec tbl Memo.empty (.zconst n srt) none (.psymbol n τ) hGood hNoPend
        (by simp [backRec, hsingle])
    exact ⟨memo', hb⟩
  · intro htv
    have hsingle : backSingleTerm tbl (.zconst n srt) [] none
        = .ok (.psymbol n (zSortToType srt)) := by
      simp [backSingleTerm, htv]
    refine ⟨hsingle, ?_⟩
    obtain ⟨memo', hb, _, _, _⟩ :=
      back_eq_backRec tbl Memo.empty (.zconst n srt) none (.psymbol n (zSortToType srt))
        hGood hNoPend (by simp [backRec, hsingle])
    exact ⟨memo', hb⟩

/-- Claim C8: quantifier elimination rejects inputs whose logic is neither
within LRA nor within LIA before any elimination work (the rejection does
not depend on the tactic oracles); when the input is within LIA (and not
LRA) and lifting the eliminated native result back fails with a
`ConvertExpressionError`, the session raises the incompleteness
`ConvertExpressionError` carrying the untranslated native result as its
`expression` attribute; when the input is within LRA, such a lifting
failure is re-raised unchanged. -/
theorem claim_c8 (tbl : SymTable) (simpTac qeTac : ZTerm → ZTerm)
    (memo : Memo) (formula : PTerm) :
    ((∀ qeTac2 : ZTerm → ZTerm,
        eliminateQuantifiers tbl false false simpTac qeTac memo formula
          = eliminateQuantifiers tbl false false simpTac qeTac2 memo formula) ∧
     eliminateQuantifiers tbl false false simpTac qeTac memo formula
       = .error (.valueError
           "Z3 quantifier elimination only supports LRA or LIA without combination.")) ∧
    (∀ e, Z3Converter.back tbl memo (qeTac (convert formula)) none
        = .error (.convertExpressionError e) →
      eliminateQuantifiers tbl false true simpTac qeTac memo formula
        = .error (.convertExprError (some (qeTac (convert formula))))) ∧
    (∀ (leLIA : Bool) e,
      Z3Converter.back tbl memo (qeTac (convert formula)) none
        = .error (.convertExpressionError e) →
      eliminateQuantifiers tbl true leLIA simpTac qeTac memo formula
        = .error (.convertExprError e)) := by
  refine ⟨⟨?_, ?_⟩, ?_, ?_⟩
  · intro qeTac2
    simp [eliminateQuantifiers]
  · simp [eliminateQuantifiers]
  · intro e hback
    simp [eliminateQuantifiers, hback]
  · intro leLIA e hback
    simp [eliminateQuantifiers, hback]

/-- Claim C9: back-conversion memoizes on the key (native term identity,
optional model identity).  Along any run of the worklist: the ghost trace of
keys on which `_back_single_term` is invoked never repeats a key (each
distinct key is computed at most once per converter); a key that is already
resolved is never recomputed and its cached node survives unchanged into
the resulting table (so every re-visit of a shared sub-term — by one parent
or by two — observes the same reconstructed node); and the instrumentation
is ghost: the traced loop computes the same table as `backLoop`, the loop
underlying `Z3Converter.back`. -/
theorem claim_c9 (tbl : SymTable) (model : Option Nat) (fuel : Nat)
    (memo : Memo) (stack : List ZTerm) (k : BackKey) (v : PTerm)
    (hk : memo k = some (some v)) :
    ((backLoopT tbl model fuel memo stack).2).Nodup ∧
    ¬ k ∈ (backLoopT tbl model fuel memo stack).2 ∧
    (∀ memo', (backLoopT tbl model fuel memo stack).1 = .ok memo' →
       memo' k = some (some v)) ∧
    (backLoopT tbl model fuel memo stack).1 = backLoop tbl model fuel memo stack := by
  refine ⟨backLoopT_nodup tbl model fuel memo stack,
          backLoopT_done_notin tbl model fuel memo stack k v hk,
          ?_, backLoopT_fst tbl model fuel memo stack⟩
  intro memo' hrun
  exact backLoopT_mono tbl model fuel memo stack k v hk memo' hrun

/-- Claim C1 (counterexample input): an application of a 3-ary
uninterpreted function to three integer symbols — a formula of the
supported grammar. -/
def c1Sig : FunSig := ⟨[.int, .int, .int], .int⟩

/-- Claim C1 (counterexample input): `g(x, y, z)`. -/
def c1Cex : PTerm :=
  .pfun "g" c1Sig (.cons (.psymbol "x" .int)
    (.cons (.psymbol "y" .int) (.cons (.psymbol "z" .int) .nil)))

/-- Claim C1 (counterexample symbol table): `g` declared with its
signature, no variable symbols registered. -/
def c1Tbl : SymTable :=
  ⟨fun _ => none, fun m => if m = "g" then some c1Sig else none⟩

/-- Claim C1 (second counterexample input): the integer division `x / 2`. -/
def c1CexDiv : PTerm := .pbin .div (.psymbol "x" .int) (.pintc 2)

/-- Claim C1, counterexample: two supported-grammar formulas on which
back-converting the forward conversion does not produce any formula at all,
refuting the claim as stated.  First, `g(x, y, z)` (an uninterpreted
function applied to three arguments): the arity assert at the top of
`_back_single_term` fails.  Second, the integer division `x / 2`:
`walk_div` lowers it through `Z3_mk_div`, which on integer-sorted operands
builds a `Z3_OP_IDIV` term; `_back_fun` has no entry for that kind, so
back-conversion falls through the dispatch, the constant branch and the
uninterpreted-function branch to the final `ConvertExpressionError` raise of
`_back_single_term`, carrying the untranslatable term. -/
theorem claim_c1_counterexample :
    Z3Converter.back c1Tbl Memo.empty (convert c1Cex) none = .error .assertionError ∧
    Z3Converter.back c1Tbl Memo.empty (convert c1CexDiv) none
      = .error (.convertExpressionError (some (convert c1CexDiv))) := by
  exact ⟨rfl, rfl⟩

/-- Claim C1 (amended): for every admissible formula of the supported
grammar in which every uninterpreted-function application has at most two
arguments — admissibility restricting, besides the symbol-table and typing
side conditions, every division to non-integer operands, since integer
division lowers to a `Z3_OP_IDIV` term that back-conversion cannot
translate (second conjunct of the counterexample) —
forward-then-backward conversion succeeds and yields the `rtSpec` shape of
the formula — the formula itself up to the two deliberate reconstructions
(Boolean if-then-else as `(¬i ∨ t) ∧ (i ∨ e)`, bitvector comparison as an
ite over an equality) — and that result denotes the same value as the
original under every interpretation (in particular it is logically
equivalent to it).  The memo table may be any table the converter can
actually be in: resolved entries correct, no in-progress leftovers. -/
theorem claim_c1 (tbl : SymTable) (f : PTerm) (memo : Memo)
    (hadm : admissible tbl f = true) (hsm : smallArity f = true)
    (hGood : MGood tbl none memo)
    (hNoPend : ∀ k, ¬ memo (k, (none : Option Nat)) = some none) :
    ∃ memo', Z3Converter.back tbl memo (convert f) none = .ok (rtSpec f, memo') ∧
      ∀ env : PEnv, psem env (rtSpec f) = psem env f := by
  obtain ⟨memo', hb, _, _, _⟩ :=
    back_eq_backRec tbl memo (convert f) none (rtSpec f) hGood hNoPend
      (backRec_convert tbl none f hadm hsm)
  exact ⟨memo', hb, fun env => psem_rtSpec env f⟩

/-- Claim C10: `get_value` evaluates the lowered term against the current
model with model completion enabled (the `true` flag of the evaluation
oracle) and lifts the result back relative to that model; when the lifted
result is not a constant the simplified form is returned, a constant result
is returned as-is. -/
theorem claim_c10 (tbl : SymTable) (evalOracle : ZTerm → Bool → ZTerm)
    (simplifyFn : PTerm → PTerm) (modelId : Nat) (s : SolverState)
    (item : PTerm) (res : PTerm) (memo' : Memo)
    (hback : Z3Converter.back tbl s.memo (evalOracle (convert item) true) (some modelId)
        = .ok (res, memo')) :
    (isConstant res = true → getValue tbl evalOracle simplifyFn modelId s item = .ok res) ∧
    (isConstant res = false →
       getValue tbl evalOracle simplifyFn modelId s item = .ok (simplifyFn res)) := by
  constructor
  · intro h
    simp [getValue, hback, h]
  · intro h
    simp [getValue, hback, h]

/-- Witness symbol table: the Boolean variables a and b declared, no
function symbols. -/
def tblW : SymTable :=
  ⟨fun m => if m = "a" then some .bool else if m = "b" then some .bool else none,
   fun _ => none⟩

/-- Witness formula: a ∧ b. -/
def fW : PTerm :=
  .pnary .and (.cons (.psymbol "a" .bool) (.cons (.psymbol "b" .bool) .nil))

/-- Witness session state: fresh engine with one base scope, unsat-core mode
"all", status as immediately after an unsat solve. -/
def stW : SolverState :=
  ⟨[[]], false, [], 0, some false, "solve", Memo.empty, some "all"⟩

/-- Witness assumption list: one composite (non-literal) assumption. -/
def assW : List PTerm :=
  [.pnary .and (.cons (.psymbol "a" .bool) (.cons (.psymbol "b" .bool) .nil))]

/-- Witness native term bearing an operator without a back-conversion entry
(the shape the qe tactic produces on LIA inputs). -/
def zqW : ZTerm := .zbin .mod (.zintv 0) (.zintv 0)

/-- Witness memo key. -/
def kW : BackKey := (.ztrue, none)

/-- Witness memo table: the key kW already resolved to TRUE. -/
def memoKW : Memo := Memo.upd Memo.empty kW (some (some .ptrue))

/-- Witness memo table: the table `back` produces when lifting TRUE in the
model context 0. -/
def memoVW : Memo :=
  Memo.upd (Memo.upd Memo.empty (.ztrue, some 0) (some none)) (.ztrue, some 0)
    (some (some .ptrue))

/-- Witness for C1: the round trip evaluated on the formula a ∧ b over the
table tblW, every hypothesis discharged by computation. -/
theorem claim_c1_witness :
    ∃ memo', Z3Converter.back tblW Memo.empty (convert fW) none = .ok (rtSpec fW, memo') ∧
      ∀ env : PEnv, psem env (rtSpec fW) = psem env fW :=
  claim_c1 tblW fW Memo.empty (by decide) (by decide)
    (by intro k v h; cases h) (by intro k h; cases h)

/-- Witness for C2: a named assertion on the tracking-enabled state stW is
tracked under the indicator _assertion_0 and recorded. -/
theorem claim_c2_witness :
    (addAssertion stW (.psymbol "p" .bool) (some "nm")).namedAssertions
        = stW.namedAssertions
          ++ [(.psymbol ("_assertion_" ++ toString stW.freshCnt) .bool, some "nm",
               .psymbol "p" .bool)] ∧
    (addAssertion stW (.psymbol "p" .bool) (some "nm")).freshCnt = stW.freshCnt + 1 ∧
    (addAssertion stW (.psymbol "p" .bool) (some "nm")).scopes
        = assertScopes
            (.tracked (convert (.psymbol ("_assertion_" ++ toString stW.freshCnt) .bool))
              (convert (.psymbol "p" .bool)))
            (clearPendingPop stW).scopes :=
  (claim_c2 stW (.psymbol "p" .bool) (some "nm")).1 ⟨by decide, by decide⟩

/-- Witness for C3: the Boolean if-then-else on concrete operands lowers to
the connective form. -/
theorem claim_c3_witness :
    convert (.pite (.psymbol "a" .bool) .ptrue .pfalse)
      = .znary .and
          (.cons (.znary .or (.cons (.zun .not (convert (.psymbol "a" .bool)))
                   (.cons (convert .ptrue) .nil)))
            (.cons (.znary .or (.cons (convert (.psymbol "a" .bool))
                   (.cons (convert .pfalse) .nil))) .nil)) :=
  (claim_c3 (.psymbol "a" .bool) .ptrue .pfalse).1 (by decide)

/-- Witness for C4: a sat-answering engine makes solve return true. -/
theorem claim_c4_witness :
    (solve (fun _ _ => CheckResult.sat) stW none).1 = .ok true :=
  (claim_c4 (fun _ _ => CheckResult.sat) stW none).2.1 rfl

/-- Witness for C5: solving under the composite assumption list assW on the
state stW, with both hypotheses discharged by computation. -/
theorem claim_c5_witness :
    (solve (fun _ _ => CheckResult.sat) stW (some assW)).2.scopes
        = [ZEntry.plain (convert (mgrAnd (assW.filter (fun x => ¬ isLiteral x))))]
            :: (clearPendingPop stW).scopes ∧
    (solve (fun _ _ => CheckResult.sat) stW (some assW)).2.pendingPop = true ∧
    (∀ op : MutOp,
       (applyMut (solve (fun _ _ => CheckResult.sat) stW (some assW)).2 op).scopes
         = (applyMut stW op).scopes) :=
  claim_c5 (fun _ _ => CheckResult.sat) stW assW (by decide) (by decide)

/-- Witness for C6: on the state stW (configured, last solve unsat, no
command since), the core of an empty reported subset is the empty
dictionary. -/
theorem claim_c6_witness :
    getNamedUnsatCore tblW [] stW = .ok [] :=
  (claim_c6 tblW [] stW (by decide)).1.2.2 rfl rfl [] stW.memo rfl

/-- Witness for C7: the symbolic leaf a resolves through the table tblW to
its declared Boolean symbol. -/
theorem claim_c7_witness :
    backSingleTerm tblW (.zconst "a" .zbool) [] none = .ok (.psymbol "a" PType.bool) ∧
    ∃ memo', Z3Converter.back tblW Memo.empty (.zconst "a" .zbool) none
      = .ok (.psymbol "a" PType.bool, memo') :=
  (claim_c7 tblW "a" .zbool).1 PType.bool (by decide)

/-- Witness for C8: with a qe oracle returning the untranslatable term zqW,
elimination under LRA re-raises the lifting failure unchanged. -/
theorem claim_c8_witness :
    eliminateQuantifiers tblW true false (fun z => z) (fun _ => zqW) Memo.empty .ptrue
      = .error (.convertExprError (some zqW)) :=
  (claim_c8 tblW (fun z => z) (fun _ => zqW) Memo.empty .ptrue).2.2 false (some zqW) rfl

/-- Witness for C9: the memoization properties evaluated on a run whose memo
already holds kW. -/
theorem claim_c9_witness :
    ((backLoopT tblW none 3 memoKW [ZTerm.ztrue]).2).Nodup ∧
    ¬ kW ∈ (backLoopT tblW none 3 memoKW [ZTerm.ztrue]).2 ∧
    (∀ memo', (backLoopT tblW none 3 memoKW [ZTerm.ztrue]).1 = .ok memo' →
       memo' kW = some (some PTerm.ptrue)) ∧
    (backLoopT tblW none 3 memoKW [ZTerm.ztrue]).1
      = backLoop tblW none 3 memoKW [ZTerm.ztrue] :=
  claim_c9 tblW none 3 memoKW [ZTerm.ztrue] kW PTerm.ptrue rfl

/-- Witness for C10: evaluating TRUE in model context 0 returns the constant
as-is. -/
theorem claim_c10_witness :
    getValue tblW (fun _ _ => ZTerm.ztrue) (fun x => x) 0 stW PTerm.ptrue
      = .ok PTerm.ptrue :=
  (claim_c10 tblW (fun _ _ => ZTerm.ztrue) (fun x => x) 0 stW PTerm.ptrue PTerm.ptrue
    memoVW rfl).1 rfl
